import Mathlib

set_option maxRecDepth 8000

/-!
Verification development for the nutree ordered-forest library
(identity registry, tree/node graph, traversal engine, diff/merge
engine, compact codec).  The Python implementation modules are not
part of this source snapshot, so the core operations are modelled
from the specification and validated against the concrete executed
examples committed in the documentation (serialization streams,
diff printouts, clone scenarios).
-/

namespace Nutree

/-- Modelled from the spec: a tree node holds a payload and an ordered
list of children.  The default `calc_data_id` derivation is an
injective hash of the payload, so payloads are identified with their
`data_id` keys; `Tr` carries that key directly. -/
inductive Tr (α : Type) : Type where
  | mk : α → List (Tr α) → Tr α

/-- Payload / data_id of a node. -/
def Tr.data {α : Type} : Tr α → α
  | .mk d _ => d

/-- Ordered children of a node. -/
def Tr.kids {α : Type} : Tr α → List (Tr α)
  | .mk _ k => k

/-- Pre-order flattening of the payloads of a forest: node first, then
each child subtree, children in sibling order. -/
def preData {α : Type} : List (Tr α) → List α
  | [] => []
  | .mk d k :: ts => d :: (preData k ++ preData ts)

/-- 0-based position of the first occurrence of a key in a list. -/
def firstIdx {α : Type} [DecidableEq α] (k : α) : List α → Option Nat
  | [] => none
  | a :: as => if a = k then some 0 else (firstIdx k as).map (· + 1)

theorem firstIdx_append {α : Type} [DecidableEq α] (k : α) (s r : List α) :
    firstIdx k (s ++ r) =
      match firstIdx k s with
      | some j => some j
      | none => (firstIdx k r).map (· + s.length) := by
  induction s with
  | nil => simp [firstIdx]
  | cons a as ih =>
    simp only [List.cons_append, firstIdx, List.append_eq]
    by_cases h : a = k
    · simp [h]
    · rw [if_neg h, if_neg h, ih]
      cases hs : firstIdx k as with
      | some j => simp
      | none =>
        cases hr : firstIdx k r with
        | none => simp
        | some j => simp [Nat.add_assoc]

theorem firstIdx_lt_length {α : Type} [DecidableEq α] {k : α} {l : List α} {j : Nat}
    (h : firstIdx k l = some j) : j < l.length := by
  induction l generalizing j with
  | nil => simp [firstIdx] at h
  | cons a as ih =>
    simp only [firstIdx] at h
    by_cases ha : a = k
    · rw [if_pos ha] at h
      cases h
      simp
    · rw [if_neg ha] at h
      cases hs : firstIdx k as with
      | none => rw [hs] at h; cases h
      | some j0 =>
        rw [hs] at h
        simp only [Option.map] at h
        cases h
        have := ih hs
        simp only [List.length_cons]
        omega

theorem firstIdx_get {α : Type} [DecidableEq α] {k : α} {l : List α} {j : Nat}
    (h : firstIdx k l = some j) : l.get? j = some k := by
  induction l generalizing j with
  | nil => simp [firstIdx] at h
  | cons a as ih =>
    simp only [firstIdx] at h
    by_cases ha : a = k
    · rw [if_pos ha] at h
      cases h
      simp [ha]
    · rw [if_neg ha] at h
      cases hs : firstIdx k as with
      | none => rw [hs] at h; cases h
      | some j0 =>
        rw [hs] at h
        simp only [Option.map] at h
        cases h
        simpa using ih hs

theorem firstIdx_self {α : Type} [DecidableEq α] (k : α) (r : List α) :
    firstIdx k (k :: r) = some 0 := by
  simp [firstIdx]

/-! ## Compact codec: encoding -/

/-- A stream value: either an encoded payload (first encounter of a
`data_id`) or an integer back-reference to the 1-based stream position
of the first node carrying that `data_id`. -/
inductive EncVal (β : Type) : Type where
  | pay : β → EncVal β
  | ref : Nat → EncVal β
deriving Repr, DecidableEq

/-- Modelled from the spec: the stateful pre-order encoder of
`Tree.save`.  It walks the forest in pre-order, carrying the list
`seen` of payload keys already emitted (in stream order).  Each node
emits one `(parent_back_reference, payload_or_index)` entry: the
back-reference is the parent's 1-based stream position (`0` for
top-level), and the value is the encoded payload on first encounter of
its `data_id`, else the 1-based position of the first carrier.
Returns the emitted entries and the final `seen` state. -/
def encGo {α β : Type} [DecidableEq α] (enc : α → β) :
    Nat → List (Tr α) → List α → List (Nat × EncVal β) × List α
  | _, [], seen => ([], seen)
  | pp, .mk d k :: ts, seen =>
    let v : EncVal β :=
      match firstIdx d seen with
      | some j => .ref (j + 1)
      | none => .pay (enc d)
    let r1 := encGo enc (seen.length + 1) k (seen ++ [d])
    let r2 := encGo enc pp ts r1.2
    ((pp, v) :: (r1.1 ++ r2.1), r2.2)

/-- Encode a whole tree (forest of top-level nodes). -/
def encode {α β : Type} [DecidableEq α] (enc : α → β) (F : List (Tr α)) :
    List (Nat × EncVal β) :=
  (encGo enc 0 F []).1

/-- Position-annotated pre-order listing: each node yields
`(own 1-based position, parent 1-based position (0 = top-level), data)`.
Also returns the next free position. -/
def annGo {α : Type} : Nat → Nat → List (Tr α) → List (Nat × Nat × α) × Nat
  | _, pos, [] => ([], pos)
  | pp, pos, .mk d k :: ts =>
    let r1 := annGo pos (pos + 1) k
    let r2 := annGo pp r1.2 ts
    ((pos, pp, d) :: (r1.1 ++ r2.1), r2.2)

/-- Position-annotated pre-order listing of a whole tree. -/
def ann {α : Type} (F : List (Tr α)) : List (Nat × Nat × α) :=
  (annGo 0 1 F).1

/-- The declarative per-entry specification of the stream format: for
the node at 1-based position `pos` with parent position `pp` and key
`d`, the earlier stream keys are `all.take (pos - 1)`; if `d` already
occurs there (at 0-based index `j`, the first carrier, so stream
position `j + 1`) emit a back-reference, else the encoded payload. -/
def entrySpec {α β : Type} [DecidableEq α] (enc : α → β) (all : List α)
    (pos pp : Nat) (d : α) : Nat × EncVal β :=
  (pp,
    match firstIdx d (all.take (pos - 1)) with
    | some j => .ref (j + 1)
    | none => .pay (enc d))

/-! ## Compact codec: decoding -/

/-- A materialized node of a decoded (or mutable) tree: a process-unique
`node_id` (the decoder uses the 1-based stream position), the payload
key, and the ordered children. -/
inductive MTr (α : Type) : Type where
  | mk : Nat → α → List (MTr α) → MTr α

/-- node_id of a materialized node. -/
def MTr.nid {α : Type} : MTr α → Nat
  | .mk i _ _ => i

/-- Payload of a materialized node. -/
def MTr.data {α : Type} : MTr α → α
  | .mk _ d _ => d

/-- Children of a materialized node. -/
def MTr.kids {α : Type} : MTr α → List (MTr α)
  | .mk _ _ k => k

/-- Forget node ids on a forest, recovering plain trees. -/
def stripF {α : Type} : List (MTr α) → List (Tr α)
  | [] => []
  | .mk _ d k :: ts => .mk d (stripF k) :: stripF ts

/-- Pre-order list of node ids of a materialized forest. -/
def posList {α : Type} : List (MTr α) → List Nat
  | [] => []
  | .mk i _ k :: ts => i :: (posList k ++ posList ts)

/-- Pre-order list of payloads of a materialized forest. -/
def dataListM {α : Type} : List (MTr α) → List α
  | [] => []
  | .mk _ d k :: ts => d :: (dataListM k ++ dataListM ts)

/-- Does a node with the given id occur anywhere in the forest? -/
def hasPos {α : Type} (p : Nat) : List (MTr α) → Bool
  | [] => false
  | .mk i _ k :: ts => (i == p) || hasPos p k || hasPos p ts

/-- Modelled from the spec: the decoder primitive that inserts a new
node as the last child of the node at an already-materialized
position, searching depth-first.  Returns `none` when the position is
absent. -/
def addChild {α : Type} (p : Nat) (c : MTr α) : List (MTr α) → Option (List (MTr α))
  | [] => none
  | .mk i d k :: ts =>
    if i = p then some (.mk i d (k ++ [c]) :: ts)
    else
      match addChild p c k with
      | some k2 => some (.mk i d k2 :: ts)
      | none => (addChild p c ts).map (.mk i d k :: ·)

/-- Total grafting: append `cs` as additional last children of the
first (depth-first) node with id `p`; unchanged if `p` is absent. -/
def graftGo {α : Type} (p : Nat) (cs : List (MTr α)) : List (MTr α) → List (MTr α)
  | [] => []
  | .mk i d k :: ts =>
    if i = p then .mk i d (k ++ cs) :: ts
    else if hasPos p k then .mk i d (graftGo p cs k) :: ts
    else .mk i d k :: graftGo p cs ts

/-- Graft under position `p`, where `p = 0` means the implicit root
(append at top level). -/
def graftF {α : Type} (p : Nat) (cs : List (MTr α)) (B : List (MTr α)) : List (MTr α) :=
  if p = 0 then B ++ cs else graftGo p cs B

/-- Ids along the rightmost spine of a forest (last top-level node,
then recursively its last child chain). -/
def rsp {α : Type} : List (MTr α) → List Nat
  | [] => []
  | .mk i _ k :: ts =>
    match ts with
    | [] => i :: rsp k
    | t :: ts2 => rsp (t :: ts2)

/-- Codec decoding failure. -/
inductive CErr : Type where
  | malformedStream
deriving Repr, DecidableEq

/-- Modelled from the spec: `Tree.load` replays the stream in order.
Each `(parent_back_reference, payload_or_index)` entry materializes
one node (its id is its 1-based stream position) under the node at the
referenced position, or at top level for `0`.  A payload value is
decoded via the hook; an integer value must point strictly backwards
at the canonical first occurrence of its `data_id`, whose payload is
shared rather than re-decoded.  Any violation fails with
`MalformedStreamError`. -/
def decodeGo {α β : Type} [DecidableEq α] (dec : β → α) :
    List (Nat × EncVal β) → List (MTr α) → List α → Except CErr (List (MTr α))
  | [], B, _ => .ok B
  | (pp, v) :: es, B, datas =>
    let myPos := datas.length + 1
    if myPos ≤ pp then .error .malformedStream
    else
      match
        (match v with
         | .pay b => some (dec b)
         | .ref i =>
           match datas.get? (i - 1) with
           | some d0 =>
             if 1 ≤ i ∧ firstIdx d0 datas = some (i - 1) then some d0 else none
           | none => none) with
      | none => .error .malformedStream
      | some d =>
        match (if pp = 0 then some (B ++ [MTr.mk myPos d []])
               else addChild pp (MTr.mk myPos d []) B) with
        | some B2 => decodeGo dec es B2 (datas ++ [d])
        | none => .error .malformedStream

/-- Decode a stream into a forest. -/
def decode {α β : Type} [DecidableEq α] (dec : β → α)
    (es : List (Nat × EncVal β)) : Except CErr (List (MTr α)) :=
  decodeGo dec es [] []

/-- The expected materialization of a plain forest: node ids are the
1-based pre-order stream positions starting at `pos`.  Returns the
forest and the next free position. -/
def toBGo {α : Type} : Nat → List (Tr α) → List (MTr α) × Nat
  | pos, [] => ([], pos)
  | pos, .mk d k :: ts =>
    let r1 := toBGo (pos + 1) k
    let r2 := toBGo r1.2 ts
    (.mk pos d r1.1 :: r2.1, r2.2)

/-! ## Encoder characterization -/

/-- Structural induction principle for forests of plain trees. -/
theorem trInd {α : Type} {P : List (Tr α) → Prop} (h0 : P [])
    (h1 : ∀ d k ts, P k → P ts → P (.mk d k :: ts)) : ∀ F, P F
  | [] => h0
  | .mk d k :: ts => h1 d k ts (trInd h0 h1 k) (trInd h0 h1 ts)

/-- Structural induction principle for forests of materialized trees. -/
theorem mtrInd {α : Type} {P : List (MTr α) → Prop} (h0 : P [])
    (h1 : ∀ i d k ts, P k → P ts → P (.mk i d k :: ts)) : ∀ B, P B
  | [] => h0
  | .mk i d k :: ts => h1 i d k ts (mtrInd h0 h1 k) (mtrInd h0 h1 ts)

theorem encGo_seen {α β : Type} [DecidableEq α] (enc : α → β) :
    ∀ F : List (Tr α), ∀ pp s, (encGo enc pp F s).2 = s ++ preData F := by
  refine trInd (by simp [encGo, preData]) ?_
  intro d k ts ihk ihts pp s
  simp [encGo, preData, ihk, ihts]

theorem annGo_next {α : Type} :
    ∀ F : List (Tr α), ∀ pp p, (annGo pp p F).2 = p + (preData F).length := by
  refine trInd (by simp [annGo, preData]) ?_
  intro d k ts ihk ihts pp p
  simp [annGo, preData, ihk, ihts]
  omega

theorem annGo_positions {α : Type} :
    ∀ F : List (Tr α), ∀ pp p,
      (annGo pp p F).1.map (fun x => x.1) = List.range' p (preData F).length := by
  refine trInd (by simp [annGo, preData]) ?_
  intro d k ts ihk ihts pp p
  simp only [annGo, preData, List.map_cons, List.map_append, ihk, ihts, annGo_next,
    List.length_cons, List.length_append]
  rw [List.range'_succ]
  simp [List.range'_append]
  omega

theorem annGo_datas {α : Type} :
    ∀ F : List (Tr α), ∀ pp p,
      (annGo pp p F).1.map (fun x => x.2.2) = preData F := by
  refine trInd (by simp [annGo, preData]) ?_
  intro d k ts ihk ihts pp p
  simp [annGo, preData, ihk, ihts]

theorem encGo_spec {α β : Type} [DecidableEq α] (enc : α → β) :
    ∀ F : List (Tr α), ∀ pp s rest,
      (encGo enc pp F s).1 =
        (annGo pp (s.length + 1) F).1.map
          (fun x => entrySpec enc (s ++ (preData F ++ rest)) x.1 x.2.1 x.2.2) := by
  refine trInd (by simp [encGo, annGo]) ?_
  intro d k ts ihk ihts pp s rest
  have hk := ihk (s.length + 1) (s ++ [d]) (preData ts ++ rest)
  have ht := ihts pp (s ++ [d] ++ preData k) rest
  simp only [encGo, annGo, preData, List.map_cons, List.map_append]
  rw [encGo_seen, hk, ht, annGo_next]
  simp only [List.length_append, List.length_cons, List.length_nil, List.append_assoc,
    List.cons_append, List.nil_append, List.singleton_append]
  congr 1
  · simp [entrySpec, List.take_left]
  · congr 2
    have h2 : s.length + ((preData k).length + 1) + 1 = s.length + 1 + 1 + (preData k).length := by
      omega
    rw [h2]

/-- The fixture tree of the serialization chapter of the user guide:
`A(a1(a11, a12), a2), B(a11*, b1(b11))` where the second `a11` is a
clone. -/
def fixtureT : List (Tr String) :=
  [.mk "A" [.mk "a1" [.mk "a11" [], .mk "a12" []], .mk "a2" []],
   .mk "B" [.mk "a11" [], .mk "b1" [.mk "b11" []]]]

set_option maxRecDepth 40000

/-- C2: the encoder emits exactly one
`(parent_back_reference, payload_or_index)` entry per non-root node in
pre-order.  The entries coincide with the positional specification
over the position-annotated pre-order listing `ann`: positions are the
consecutive 1-based stream positions (`range' 1 n`, so a parent
reference of `0` can only mean the implicit root, i.e. top level, and
each child entry carries its parent's 1-based position), the entry
data follows the pre-order payload listing, and a node whose key
already occurred strictly earlier in the stream is encoded as the
1-based position of the first carrier of that key instead of its
payload.  Validated bit-exactly on the user-guide fixture stream. -/
theorem C2_compact_stream {α β : Type} [DecidableEq α] (enc : α → β) (F : List (Tr α)) :
    (encode enc F).length = (preData F).length ∧
    encode enc F = (ann F).map (fun x => entrySpec enc (preData F) x.1 x.2.1 x.2.2) ∧
    (ann F).map (fun x => x.1) = List.range' 1 (preData F).length ∧
    (ann F).map (fun x => x.2.2) = preData F ∧
    encode (fun s => s) fixtureT =
      [(0, .pay "A"), (1, .pay "a1"), (2, .pay "a11"), (2, .pay "a12"), (1, .pay "a2"),
       (0, .pay "B"), (6, .ref 3), (6, .pay "b1"), (8, .pay "b11")] := by
  have hspec := encGo_spec enc F 0 [] []
  simp only [List.length_nil, List.nil_append, List.append_nil, Nat.zero_add] at hspec
  refine ⟨?_, ?_, ?_, ?_, ?_⟩
  · rw [encode, hspec, List.length_map, ← annGo_datas F 0 1, List.length_map]
  · rw [encode, hspec]; rfl
  · exact annGo_positions F 0 1
  · exact annGo_datas F 0 1
  · simp [encode, encGo, firstIdx, fixtureT]

set_option maxRecDepth 8000

/-! ## Decoder support lemmas -/

theorem posList_append {α : Type} :
    ∀ K1 K2 : List (MTr α), posList (K1 ++ K2) = posList K1 ++ posList K2 := by
  intro K1
  induction K1 using mtrInd with
  | h0 => simp [posList]
  | h1 i d k ts ihk ihts => intro K2; simp [posList, ihts]

theorem dataListM_append {α : Type} :
    ∀ K1 K2 : List (MTr α), dataListM (K1 ++ K2) = dataListM K1 ++ dataListM K2 := by
  intro K1
  induction K1 using mtrInd with
  | h0 => simp [dataListM]
  | h1 i d k ts ihk ihts => intro K2; simp [dataListM, ihts]

theorem hasPos_eq_mem {α : Type} (p : Nat) :
    ∀ B : List (MTr α), hasPos p B = true ↔ p ∈ posList B := by
  refine mtrInd (by simp [hasPos, posList]) ?_
  intro i d k ts ihk ihts
  simp only [hasPos, Bool.or_eq_true, beq_iff_eq, posList, List.mem_cons, List.mem_append,
    ihk, ihts]
  constructor
  · rintro ((h | h) | h)
    · exact Or.inl h.symm
    · exact Or.inr (Or.inl h)
    · exact Or.inr (Or.inr h)
  · rintro (h | h | h)
    · exact Or.inl (Or.inl h.symm)
    · exact Or.inl (Or.inr h)
    · exact Or.inr h

theorem hasPos_append {α : Type} (p : Nat) (K1 K2 : List (MTr α)) :
    hasPos p (K1 ++ K2) = (hasPos p K1 || hasPos p K2) := by
  by_cases h1 : hasPos p K1 = true
  · have := (hasPos_eq_mem p K1).1 h1
    have : p ∈ posList (K1 ++ K2) := by
      rw [posList_append]; exact List.mem_append_left _ this
    rw [h1, (hasPos_eq_mem p _).2 this]; rfl
  · by_cases h2 : hasPos p K2 = true
    · have := (hasPos_eq_mem p K2).1 h2
      have : p ∈ posList (K1 ++ K2) := by
        rw [posList_append]; exact List.mem_append_right _ this
      rw [h2, (hasPos_eq_mem p _).2 this]
      simp
    · have : ¬ p ∈ posList (K1 ++ K2) := by
        rw [posList_append]
        intro hmem
        rcases List.mem_append.1 hmem with h | h
        · exact h1 ((hasPos_eq_mem p K1).2 h)
        · exact h2 ((hasPos_eq_mem p K2).2 h)
      rw [Bool.eq_false_iff.2 h1, Bool.eq_false_iff.2 h2]
      simp only [Bool.or_false]
      exact Bool.eq_false_iff.2 (fun hc => this ((hasPos_eq_mem p _).1 hc))

theorem addChild_not_found {α : Type} (p : Nat) (c : MTr α) :
    ∀ B : List (MTr α), hasPos p B = false → addChild p c B = none := by
  refine mtrInd (by simp [addChild]) ?_
  intro i d k ts ihk ihts h
  simp only [hasPos, Bool.or_eq_false_iff, beq_eq_false_iff_ne, ne_eq] at h
  obtain ⟨⟨hip, hk⟩, hts⟩ := h
  simp [addChild, hip, ihk hk, ihts hts]

theorem addChild_eq_graft {α : Type} (p : Nat) (c : MTr α) :
    ∀ B : List (MTr α), hasPos p B = true →
      addChild p c B = some (graftGo p [c] B) := by
  refine mtrInd (by simp [hasPos]) ?_
  intro i d k ts ihk ihts h
  by_cases hip : i = p
  · simp [addChild, graftGo, hip]
  · simp only [hasPos, Bool.or_eq_true, beq_iff_eq] at h
    rcases h with (h | hk) | hts
    · exact absurd h hip
    · simp [addChild, graftGo, hip, hk, ihk hk]
    · by_cases hk : hasPos p k = true
      · simp [addChild, graftGo, hip, hk, ihk hk]
      · have hk' : hasPos p k = false := Bool.eq_false_iff.2 hk
        simp [addChild, graftGo, hip, hk', addChild_not_found p c k hk', ihts hts]

theorem graftGo_not_found {α : Type} (p : Nat) (cs : List (MTr α)) :
    ∀ B : List (MTr α), hasPos p B = false → graftGo p cs B = B := by
  refine mtrInd (by simp [graftGo]) ?_
  intro i d k ts ihk ihts h
  simp only [hasPos, Bool.or_eq_false_iff, beq_eq_false_iff_ne, ne_eq] at h
  obtain ⟨⟨hip, hk⟩, hts⟩ := h
  simp [graftGo, hip, hk, ihts hts]

/-- Prefix of a list up to and including the first occurrence of `p`. -/
def takeThrough (p : Nat) : List Nat → List Nat
  | [] => []
  | a :: as => if a = p then [p] else a :: takeThrough p as

theorem takeThrough_mem (p : Nat) : ∀ l : List Nat, p ∈ l → p ∈ takeThrough p l := by
  intro l
  induction l with
  | nil => simp
  | cons a as ih =>
    intro h
    by_cases hap : a = p
    · simp [takeThrough, hap]
    · rcases List.mem_cons.1 h with h | h
      · exact absurd h.symm hap
      · simp only [takeThrough, hap, if_false]
        exact List.mem_cons_of_mem _ (ih h)

theorem takeThrough_fresh (q : Nat) : ∀ l : List Nat, q ∉ l →
    takeThrough q (l ++ [q]) = l ++ [q] := by
  intro l
  induction l with
  | nil => simp [takeThrough]
  | cons a as ih =>
    intro h
    have haq : a ≠ q := fun hc => h (by simp [hc])
    have : q ∉ as := fun hc => h (List.mem_cons_of_mem _ hc)
    simp only [List.cons_append, takeThrough, List.append_eq]
    rw [if_neg haq, ih this]

theorem takeThrough_stable (p : Nat) : ∀ l m : List Nat, p ∈ l →
    takeThrough p (takeThrough p l ++ m) = takeThrough p l := by
  intro l
  induction l with
  | nil => simp
  | cons a as ih =>
    intro m h
    by_cases hap : a = p
    · simp [takeThrough, hap]
    · rcases List.mem_cons.1 h with h | h
      · exact absurd h.symm hap
      · simp only [takeThrough, hap, if_false, List.cons_append]
        rw [ih m h]

theorem rsp_sub {α : Type} : ∀ B : List (MTr α), ∀ q ∈ rsp B, q ∈ posList B := by
  refine mtrInd (by simp [rsp]) ?_
  intro i d k ts ihk ihts q hq
  cases ts with
  | nil =>
    simp only [rsp] at hq
    rcases List.mem_cons.1 hq with h | h
    · simp [posList, h]
    · simp only [posList, List.append_nil]
      exact List.mem_cons_of_mem _ (ihk q h)
  | cons t' ts' =>
    simp only [rsp] at hq
    have := ihts q hq
    simp only [posList, List.mem_cons, List.mem_append]
    exact Or.inr (Or.inr this)

theorem rsp_append_right {α : Type} :
    ∀ K cs : List (MTr α), cs ≠ [] → rsp (K ++ cs) = rsp cs := by
  intro K
  induction K with
  | nil => intro cs h; rfl
  | cons x K' ih =>
    intro cs h
    have hne : K' ++ cs ≠ [] := by
      intro hc
      exact h (List.append_eq_nil.1 hc).2
    rw [List.cons_append]
    cases hKc : K' ++ cs with
    | nil => exact absurd hKc hne
    | cons y ys =>
      cases x with
      | mk i d k =>
        simp only [rsp]
        rw [← hKc, ih cs h]

theorem graftGo_ne_nil {α : Type} (p : Nat) (cs : List (MTr α)) (x : MTr α)
    (xs : List (MTr α)) : graftGo p cs (x :: xs) ≠ [] := by
  cases x with
  | mk i d k =>
    simp only [graftGo]
    by_cases hip : i = p
    · simp [hip]
    · by_cases hk : hasPos p k
      · simp [hip, hk]
      · simp [hip, hk]

theorem hasPos_graft_mono {α : Type} (q p : Nat) (cs : List (MTr α)) :
    ∀ B : List (MTr α), hasPos q B = true → hasPos q (graftGo p cs B) = true := by
  refine mtrInd (by simp [hasPos]) ?_
  intro i d k ts ihk ihts h
  simp only [hasPos, Bool.or_eq_true] at h
  by_cases hip : i = p
  · subst hip
    simp only [graftGo, eq_self_iff_true, if_true, hasPos, Bool.or_eq_true, hasPos_append]
    tauto
  · by_cases hk : hasPos p k
    · simp only [graftGo, if_neg hip, if_pos hk, hasPos, Bool.or_eq_true]
      rcases h with (h | h) | h
      · tauto
      · exact Or.inl (Or.inr (ihk h))
      · tauto
    · simp only [graftGo, if_neg hip, if_neg hk, hasPos, Bool.or_eq_true]
      rcases h with (h | h) | h
      · tauto
      · tauto
      · exact Or.inr (ihts h)

theorem rsp_one {α : Type} (i : Nat) (d : α) (k : List (MTr α)) :
    rsp [MTr.mk i d k] = i :: rsp k := by
  simp [rsp]

theorem rsp_two {α : Type} (x y : MTr α) (ts : List (MTr α)) :
    rsp (x :: y :: ts) = rsp (y :: ts) := by
  cases x with
  | mk i d k => simp [rsp]

theorem takeThrough_cons (p a : Nat) (as : List Nat) :
    takeThrough p (a :: as) = if a = p then [p] else a :: takeThrough p as := by
  rw [takeThrough.eq_def]

/-- Grafting children under a node on the rightmost spine appends them
at the very end of the pre-order listing, and the spine is cut at the
target and continued through the grafted children. -/
theorem graft_shape {α : Type} (p : Nat) (cs : List (MTr α)) :
    ∀ B : List (MTr α), (posList B).Nodup → p ∈ rsp B →
      posList (graftGo p cs B) = posList B ++ posList cs ∧
      dataListM (graftGo p cs B) = dataListM B ++ dataListM cs ∧
      (cs = [] ∨ rsp (graftGo p cs B) = takeThrough p (rsp B) ++ rsp cs) := by
  refine mtrInd (by simp [rsp]) ?_
  intro i d k ts ihk ihts hnd hp
  have hndk : (posList k).Nodup ∧ (posList ts).Nodup ∧
      i ∉ posList k ++ posList ts ∧ ∀ q ∈ posList k, q ∉ posList ts := by
    simp only [posList, List.nodup_cons, List.nodup_append] at hnd
    exact ⟨hnd.2.1, hnd.2.2.1, hnd.1, hnd.2.2.2⟩
  cases ts with
  | nil =>
    simp only [rsp] at hp
    by_cases hip : i = p
    · subst hip
      simp only [graftGo, eq_self_iff_true, if_true]
      refine ⟨?_, ?_, ?_⟩
      · simp [posList, posList_append]
      · simp [dataListM, dataListM_append]
      · cases hcs : cs with
        | nil => exact Or.inl rfl
        | cons c cs' =>
          refine Or.inr ?_
          rw [← hcs]
          rw [rsp_one, rsp_append_right k cs (by simp [hcs]), rsp_one, takeThrough_cons]
          simp
    · rcases List.mem_cons.1 hp with h | h
      · exact absurd h.symm hip
      · have hk : hasPos p k = true :=
          (hasPos_eq_mem p k).2 (rsp_sub k p h)
        obtain ⟨ih1, ih2, ih3⟩ := ihk hndk.1 h
        simp only [graftGo, if_neg hip, if_pos hk]
        refine ⟨?_, ?_, ?_⟩
        · simp [posList, ih1]
        · simp [dataListM, ih2]
        · rcases ih3 with rfl | ih3
          · exact Or.inl rfl
          · refine Or.inr ?_
            rw [rsp_one, ih3, rsp_one, takeThrough_cons, if_neg hip]
            rfl
  | cons t' ts' =>
    rw [rsp_two] at hp
    have hpts : p ∈ posList (t' :: ts') := rsp_sub _ p hp
    have hip : i ≠ p := by
      intro hc
      subst hc
      exact hndk.2.2.1 (List.mem_append_right _ hpts)
    have hk : hasPos p k = false := by
      rw [Bool.eq_false_iff]
      intro hc
      exact hndk.2.2.2 p ((hasPos_eq_mem p k).1 hc) hpts
    obtain ⟨ih1, ih2, ih3⟩ := ihts hndk.2.1 hp
    simp only [graftGo, if_neg hip, hk, Bool.false_eq_true, if_false]
    refine ⟨?_, ?_, ?_⟩
    · simp [posList, ih1]
    · simp [dataListM, ih2]
    · rcases ih3 with rfl | ih3
      · exact Or.inl rfl
      · refine Or.inr ?_
        have hne := graftGo_ne_nil p cs t' ts'
        cases hg : graftGo p cs (t' :: ts') with
        | nil => exact absurd hg hne
        | cons y ys =>
          rw [rsp_two, ← hg, ih3, rsp_two]

theorem graftGo_cons {α : Type} (p : Nat) (cs : List (MTr α)) (i : Nat) (d : α)
    (k ts : List (MTr α)) :
    graftGo p cs (MTr.mk i d k :: ts) =
      if i = p then MTr.mk i d (k ++ cs) :: ts
      else if hasPos p k then MTr.mk i d (graftGo p cs k) :: ts
      else MTr.mk i d k :: graftGo p cs ts := by
  rw [graftGo.eq_def]

/-- Grafting twice under the same target concatenates the grafted
child lists. -/
theorem graftGo_graftGo {α : Type} (p : Nat) (cs1 cs2 : List (MTr α)) :
    ∀ B : List (MTr α), graftGo p cs2 (graftGo p cs1 B) = graftGo p (cs1 ++ cs2) B := by
  refine mtrInd (by simp [graftGo]) ?_
  intro i d k ts ihk ihts
  by_cases hip : i = p
  · subst hip
    simp [graftGo_cons]
  · by_cases hk : hasPos p k
    · simp [graftGo_cons, hip, hk, hasPos_graft_mono p p cs1 k hk, ihk]
    · simp [graftGo_cons, hip, hk, ihts]

theorem graftGo_skip {α : Type} (q : Nat) (cs : List (MTr α)) :
    ∀ K : List (MTr α), hasPos q K = false →
      ∀ X, graftGo q cs (K ++ X) = K ++ graftGo q cs X := by
  refine mtrInd (by simp) ?_
  intro i d k ts ihk ihts h X
  simp only [hasPos, Bool.or_eq_false_iff, beq_eq_false_iff_ne, ne_eq] at h
  obtain ⟨⟨hiq, hkq⟩, htq⟩ := h
  rw [List.cons_append, graftGo_cons, if_neg hiq, hkq]
  simp only [Bool.false_eq_true, if_false]
  rw [ihts htq X]
  rfl

theorem hasPos_graft_new {α : Type} (q p : Nat) (d0 : α) (cs0 : List (MTr α)) :
    ∀ B : List (MTr α), hasPos p B = true →
      hasPos q (graftGo p [MTr.mk q d0 cs0] B) = true := by
  refine mtrInd (by simp [hasPos]) ?_
  intro i d k ts ihk ihts h
  by_cases hip : i = p
  · subst hip
    simp [graftGo, hasPos, hasPos_append]
  · simp only [hasPos, Bool.or_eq_true, beq_iff_eq] at h
    rcases h with (h | h) | h
    · exact absurd h hip
    · simp only [graftGo, if_neg hip, if_pos h, hasPos, Bool.or_eq_true]
      exact Or.inl (Or.inr (ihk h))
    · by_cases hk : hasPos p k
      · simp only [graftGo, if_neg hip, if_pos hk, hasPos, Bool.or_eq_true]
        exact Or.inl (Or.inr (ihk hk))
      · simp only [graftGo, if_neg hip, if_neg hk, hasPos, Bool.or_eq_true]
        exact Or.inr (ihts h)

/-- Grafting children into a freshly grafted (previously absent) node
is the same as grafting the completed node once. -/
theorem graft_deep {α : Type} (q p : Nat) (d0 : α) (cs : List (MTr α)) :
    ∀ B : List (MTr α), hasPos q B = false → q ≠ p →
      graftGo q cs (graftGo p [MTr.mk q d0 []] B) =
        graftGo p [MTr.mk q d0 cs] B := by
  refine mtrInd (by simp [graftGo]) ?_
  intro i d k ts ihk ihts h hqp
  simp only [hasPos, Bool.or_eq_false_iff, beq_eq_false_iff_ne, ne_eq] at h
  obtain ⟨⟨hiq, hkq⟩, htq⟩ := h
  by_cases hip : i = p
  · subst hip
    simp [graftGo_cons, hiq, hkq, hasPos, hasPos_append, graftGo_skip q cs k hkq]
  · by_cases hk : hasPos p k
    · simp [graftGo_cons, hip, hiq, hk, hasPos_graft_new q p d0 [] k hk, ihk hkq hqp]
    · simp [graftGo_cons, hip, hiq, hk, hkq, ihts htq hqp]

theorem graftGo_nil {α : Type} (p : Nat) :
    ∀ B : List (MTr α), graftGo p [] B = B := by
  refine mtrInd (by simp [graftGo]) ?_
  intro i d k ts ihk ihts
  by_cases hip : i = p
  · subst hip
    simp [graftGo]
  · by_cases hk : hasPos p k
    · simp [graftGo, hip, hk, ihk]
    · simp [graftGo, hip, hk, ihts]

theorem graftF_zero {α : Type} (cs B : List (MTr α)) : graftF 0 cs B = B ++ cs := by
  simp [graftF]

theorem graftF_pos {α : Type} {p : Nat} (hp : p ≠ 0) (cs B : List (MTr α)) :
    graftF p cs B = graftGo p cs B := by
  simp [graftF, hp]

theorem toBGo_next {α : Type} :
    ∀ F : List (Tr α), ∀ p, (toBGo p F).2 = p + (preData F).length := by
  refine trInd (by simp [toBGo, preData]) ?_
  intro d k ts ihk ihts p
  simp [toBGo, preData, ihk, ihts]
  omega

theorem toBGo_pos {α : Type} :
    ∀ F : List (Tr α), ∀ p, posList (toBGo p F).1 = List.range' p (preData F).length := by
  refine trInd (by simp [toBGo, preData, posList]) ?_
  intro d k ts ihk ihts p
  simp only [toBGo, posList, ihk, ihts, toBGo_next, preData, List.length_cons,
    List.length_append]
  rw [List.range'_append_1, ← List.range'_succ]
  congr 1
  omega

theorem toBGo_data {α : Type} :
    ∀ F : List (Tr α), ∀ p, dataListM (toBGo p F).1 = preData F := by
  refine trInd (by simp [toBGo, preData, dataListM]) ?_
  intro d k ts ihk ihts p
  simp [toBGo, preData, dataListM, ihk, ihts]

theorem toBGo_strip {α : Type} :
    ∀ F : List (Tr α), ∀ p, stripF (toBGo p F).1 = F := by
  refine trInd (by simp [toBGo, stripF]) ?_
  intro d k ts ihk ihts p
  simp [toBGo, stripF, ihk, ihts]

theorem toBGo_rsp_head {α : Type} (d : α) (k ts : List (Tr α)) (p : Nat) :
    (toBGo p (.mk d k :: ts)).1 =
      MTr.mk p d (toBGo (p + 1) k).1 :: (toBGo ((toBGo (p + 1) k).2) ts).1 := by
  simp [toBGo]

/-- Replaying the encoder output of a subforest from a consistent
partial state grafts exactly the materialized subforest under the
target parent position.  This is the simulation invariant of
`decode` against `encode`. -/
theorem decode_encode_go {α β : Type} [DecidableEq α] (enc : α → β) (dec : β → α) :
    ∀ F : List (Tr α), ∀ pp B s es0,
      (∀ a ∈ preData F, dec (enc a) = a) →
      posList B = List.range' 1 s.length →
      dataListM B = s →
      (pp = 0 ∨ pp ∈ rsp B) →
      decodeGo dec ((encGo enc pp F s).1 ++ es0) B s =
        decodeGo dec es0 (graftF pp (toBGo (s.length + 1) F).1 B) (s ++ preData F) := by
  refine trInd ?_ ?_
  · intro pp B s es0 _ _ _ _
    have hnil : preData ([] : List (Tr α)) = [] := by simp [preData]
    simp [encGo, toBGo, graftF, graftGo_nil, hnil]
  · intro d k ts ihk ihts pp B s es0 hdec hpos hdata hsp
    have hd : dec (enc d) = d := hdec d (by simp [preData])
    have hpple : pp ≤ s.length := by
      rcases hsp with h0 | hsp
      · omega
      · have := rsp_sub B pp hsp
        rw [hpos] at this
        have := List.mem_range'_1.1 this
        omega
    have hndB : (posList B).Nodup := by
      rw [hpos]; exact List.nodup_range' 1 s.length
    have hfresh : hasPos (s.length + 1) B = false := by
      rw [Bool.eq_false_iff]
      intro hc
      have := (hasPos_eq_mem _ B).1 hc
      rw [hpos] at this
      have := List.mem_range'_1.1 this
      omega
    have hB1 : (if pp = 0 then some (B ++ [MTr.mk (s.length + 1) d []])
        else addChild pp (MTr.mk (s.length + 1) d []) B) =
        some (graftF pp [MTr.mk (s.length + 1) d []] B) := by
      by_cases h0 : pp = 0
      · simp [h0, graftF]
      · rcases hsp with h0' | hsp'
        · exact absurd h0' h0
        · have hmem : hasPos pp B = true := (hasPos_eq_mem pp B).2 (rsp_sub B pp hsp')
          simp [h0, graftF, addChild_eq_graft pp _ B hmem]
    have hstep : decodeGo dec ((encGo enc pp (.mk d k :: ts) s).1 ++ es0) B s =
        decodeGo dec ((encGo enc (s.length + 1) k (s ++ [d])).1 ++
          ((encGo enc pp ts ((s ++ [d]) ++ preData k)).1 ++ es0))
          (graftF pp [MTr.mk (s.length + 1) d []] B) (s ++ [d]) := by
      cases hfi : firstIdx d s with
      | none =>
        simp only [encGo, hfi, encGo_seen, List.cons_append, List.append_assoc]
        simp only [decodeGo]
        rw [if_neg (by omega)]
        simp only [hd, hB1]
      | some j =>
        have hget : s.get? j = some d := firstIdx_get hfi
        simp only [encGo, hfi, encGo_seen, List.cons_append, List.append_assoc]
        simp only [decodeGo]
        rw [if_neg (by omega)]
        simp only [Nat.add_sub_cancel, hget, hfi, le_refl, Nat.le_add_left, true_and,
          and_self, if_pos, hB1]
    have hdeck : ∀ a ∈ preData k, dec (enc a) = a := by
      intro a ha
      exact hdec a (by simp [preData, ha])
    have hdects : ∀ a ∈ preData ts, dec (enc a) = a := by
      intro a ha
      exact hdec a (by simp [preData, ha])
    have hk1 : posList (graftF pp [MTr.mk (s.length + 1) d []] B) =
        List.range' 1 (s ++ [d]).length := by
      have hone : posList [MTr.mk (s.length + 1) d []] = [s.length + 1] := by
        simp [posList]
      have htail : List.range' 1 s.length ++ [s.length + 1] =
          List.range' 1 (s.length + 1) := by
        have h2 : 1 + s.length = s.length + 1 := by omega
        rw [List.range'_1_concat, h2]
      by_cases h0 : pp = 0
      · rw [h0, graftF, if_pos rfl, posList_append, hpos, hone]
        simpa using htail
      · rcases hsp with h0' | hsp'
        · exact absurd h0' h0
        · rw [graftF, if_neg h0, (graft_shape pp _ B hndB hsp').1, hpos, hone]
          simpa using htail
    have hk2 : dataListM (graftF pp [MTr.mk (s.length + 1) d []] B) = s ++ [d] := by
      have hone : dataListM [MTr.mk (s.length + 1) d []] = [d] := by
        simp [dataListM]
      by_cases h0 : pp = 0
      · rw [h0, graftF, if_pos rfl, dataListM_append, hdata, hone]
      · rcases hsp with h0' | hsp'
        · exact absurd h0' h0
        · rw [graftF, if_neg h0, (graft_shape pp _ B hndB hsp').2.1, hdata, hone]
    have hk3 : s.length + 1 ∈ rsp (graftF pp [MTr.mk (s.length + 1) d []] B) := by
      by_cases h0 : pp = 0
      · rw [h0, graftF, if_pos rfl, rsp_append_right B _ (by simp), rsp_one]
        simp
      · rcases hsp with h0' | hsp'
        · exact absurd h0' h0
        · rw [graftF, if_neg h0]
          rcases (graft_shape pp [MTr.mk (s.length + 1) d []] B hndB hsp').2.2
            with hnil | hr
          · simp at hnil
          · rw [hr, rsp_one]
            simp
    have ihk' := ihk (s.length + 1) (graftF pp [MTr.mk (s.length + 1) d []] B)
      (s ++ [d]) ((encGo enc pp ts ((s ++ [d]) ++ preData k)).1 ++ es0)
      hdeck hk1 hk2 (Or.inr hk3)
    have hdeep : graftF (s.length + 1) (toBGo ((s ++ [d]).length + 1) k).1
        (graftF pp [MTr.mk (s.length + 1) d []] B) =
        graftF pp [MTr.mk (s.length + 1) d (toBGo ((s ++ [d]).length + 1) k).1] B := by
      by_cases h0 : pp = 0
      · subst h0
        rw [graftF_zero, graftF_zero, graftF_pos (by omega)]
        rw [graftGo_skip _ _ B hfresh]
        congr 1
        simp [graftGo_cons]
      · rw [graftF_pos h0, graftF_pos h0, graftF_pos (by omega)]
        exact graft_deep (s.length + 1) pp d _ B hfresh (by omega)
    rw [hdeep] at ihk'
    have hts1 : posList (graftF pp
        [MTr.mk (s.length + 1) d (toBGo ((s ++ [d]).length + 1) k).1] B) =
        List.range' 1 (((s ++ [d]) ++ preData k)).length := by
      have hone : posList [MTr.mk (s.length + 1) d (toBGo ((s ++ [d]).length + 1) k).1] =
          List.range' (s.length + 1) ((preData k).length + 1) := by
        have hl : (s ++ [d]).length + 1 = s.length + 1 + 1 := by simp
        simp only [posList, toBGo_pos, List.append_nil, hl]
        rw [List.range'_succ]
      have htail : List.range' 1 s.length ++
          List.range' (s.length + 1) ((preData k).length + 1) =
          List.range' 1 (((s ++ [d]) ++ preData k)).length := by
        have h1 : (((s ++ [d]) ++ preData k)).length =
            (preData k).length + 1 + s.length := by
          simp only [List.length_append, List.length_cons, List.length_nil]
          omega
        have h2 : 1 + s.length = s.length + 1 := by omega
        rw [h1,
          show List.range' 1 ((preData k).length + 1 + s.length) =
              List.range' 1 s.length ++
                List.range' (1 + s.length) ((preData k).length + 1) from
            (List.range'_append_1 1 s.length ((preData k).length + 1)).symm,
          h2]
      by_cases h0 : pp = 0
      · rw [h0, graftF, if_pos rfl, posList_append, hpos, hone, htail]
      · rcases hsp with h0' | hsp'
        · exact absurd h0' h0
        · rw [graftF, if_neg h0, (graft_shape pp _ B hndB hsp').1, hpos, hone, htail]
    have hts2 : dataListM (graftF pp
        [MTr.mk (s.length + 1) d (toBGo ((s ++ [d]).length + 1) k).1] B) =
        (s ++ [d]) ++ preData k := by
      have hone : dataListM [MTr.mk (s.length + 1) d (toBGo ((s ++ [d]).length + 1) k).1] =
          d :: preData k := by
        simp [dataListM, toBGo_data]
      by_cases h0 : pp = 0
      · rw [h0, graftF, if_pos rfl, dataListM_append, hdata, hone]
        simp
      · rcases hsp with h0' | hsp'
        · exact absurd h0' h0
        · rw [graftF, if_neg h0, (graft_shape pp _ B hndB hsp').2.1, hdata, hone]
          simp
    have hts3 : pp = 0 ∨ pp ∈ rsp (graftF pp
        [MTr.mk (s.length + 1) d (toBGo ((s ++ [d]).length + 1) k).1] B) := by
      by_cases h0 : pp = 0
      · exact Or.inl h0
      · rcases hsp with h0' | hsp'
        · exact absurd h0' h0
        · refine Or.inr ?_
          rw [graftF, if_neg h0]
          rcases (graft_shape pp
              [MTr.mk (s.length + 1) d (toBGo ((s ++ [d]).length + 1) k).1] B hndB
              hsp').2.2 with hnil | hr
          · simp at hnil
          · rw [hr]
            exact List.mem_append_left _ (takeThrough_mem pp _ hsp')
    have ihts' := ihts pp
      (graftF pp [MTr.mk (s.length + 1) d (toBGo ((s ++ [d]).length + 1) k).1] B)
      ((s ++ [d]) ++ preData k) es0 hdects hts1 hts2 hts3
    have hfinal : graftF pp (toBGo ((((s ++ [d]) ++ preData k)).length + 1) ts).1
        (graftF pp [MTr.mk (s.length + 1) d (toBGo ((s ++ [d]).length + 1) k).1] B) =
        graftF pp (toBGo (s.length + 1) (.mk d k :: ts)).1 B := by
      have hhead : (toBGo (s.length + 1) (.mk d k :: ts)).1 =
          [MTr.mk (s.length + 1) d (toBGo ((s ++ [d]).length + 1) k).1] ++
            (toBGo ((((s ++ [d]) ++ preData k)).length + 1) ts).1 := by
        have e1 : (s ++ [d]).length + 1 = s.length + 1 + 1 := by simp
        have e2 : (((s ++ [d]) ++ preData k)).length + 1 =
            s.length + 1 + 1 + (preData k).length := by
          simp only [List.length_append, List.length_cons, List.length_nil]
          omega
        rw [e1, e2]
        simp only [toBGo, toBGo_next, List.singleton_append]
      rw [hhead]
      by_cases h0 : pp = 0
      · subst h0
        rw [graftF_zero, graftF_zero, graftF_zero, List.append_assoc]
      · rw [graftF_pos h0, graftF_pos h0, graftF_pos h0, graftGo_graftGo]
    rw [hstep, ihk', ihts', hfinal]
    have hdatas : ((s ++ [d]) ++ preData k) ++ preData ts =
        s ++ preData (.mk d k :: ts) := by
      simp [preData]
    rw [hdatas]

/-- C3: codec round-trip.  For every tree whose payloads survive the
encoding hooks losslessly, `decode` after `encode` succeeds and
reconstructs a forest with the same parent/child topology and payloads
(`stripF` of the result is the original forest), the same `data_id` at
each pre-order position, and node ids equal to the stream positions;
in particular two original clone positions (equal `data_id`) map to
two result positions that the decoder recognizes as carrying the same
key, the clone payload being resolved from the back-reference. -/
theorem C3_codec_roundtrip {α β : Type} [DecidableEq α] (enc : α → β) (dec : β → α)
    (F : List (Tr α)) (h : ∀ a ∈ preData F, dec (enc a) = a) :
    decode dec (encode enc F) = .ok ((toBGo 1 F).1) ∧
    stripF ((toBGo 1 F).1) = F ∧
    dataListM ((toBGo 1 F).1) = preData F ∧
    posList ((toBGo 1 F).1) = List.range' 1 (preData F).length ∧
    (∀ i j : Nat,
      ((preData F).get? i = (preData F).get? j ↔
        (dataListM ((toBGo 1 F).1)).get? i = (dataListM ((toBGo 1 F).1)).get? j)) := by
  have main := decode_encode_go enc dec F 0 [] [] [] h
    (by simp [posList]) (by simp [dataListM]) (Or.inl rfl)
  refine ⟨?_, toBGo_strip F 1, toBGo_data F 1, toBGo_pos F 1, ?_⟩
  · rw [decode, encode]
    simp only [List.append_nil, List.nil_append, List.length_nil] at main
    rw [main, graftF_zero]
    simp [decodeGo]
  · intro i j
    rw [toBGo_data F 1]

/-- Concrete instantiation of the codec round-trip on the user-guide
fixture tree with identity hooks. -/
theorem C3_codec_roundtrip_witness :
    decode (fun s => s) (encode (fun s => s) fixtureT) = .ok ((toBGo 1 fixtureT).1) ∧
    stripF ((toBGo 1 fixtureT).1) = fixtureT :=
  ⟨(C3_codec_roundtrip (fun s => s) (fun s => s) fixtureT (fun _ _ => rfl)).1,
   (C3_codec_roundtrip (fun s => s) (fun s => s) fixtureT (fun _ _ => rfl)).2.1⟩

/-! ## Diff/merge engine -/

/-- Diff classification tags (the reserved `dc` metadata values). -/
inductive DC : Type where
  | ADDED
  | REMOVED
  | MOVED_HERE
  | MOVED_AWAY
  | MODIFIED
deriving Repr, DecidableEq

/-- A node of the annotated merge result: payload key, optional diff
classification, children. -/
inductive DTr (α : Type) : Type where
  | mk : α → Option DC → List (DTr α) → DTr α

/-- Payload of a result node. -/
def DTr.data {α : Type} : DTr α → α
  | .mk d _ _ => d

/-- Classification of a result node. -/
def DTr.tag {α : Type} : DTr α → Option DC
  | .mk _ c _ => c

/-- Children of a result node. -/
def DTr.kids {α : Type} : DTr α → List (DTr α)
  | .mk _ _ k => k

/-- First sibling carrying the given data_id. -/
def findTr {α : Type} [DecidableEq α] (k : α) : List (Tr α) → Option (Tr α)
  | [] => none
  | .mk d kk :: ts => if d = k then some (.mk d kk) else findTr k ts

theorem findTr_mem {α : Type} [DecidableEq α] {k : α} :
    ∀ {c : List (Tr α)} {t : Tr α}, findTr k c = some t → t ∈ c ∧ t.data = k := by
  intro c
  induction c with
  | nil => intro t h; simp [findTr] at h
  | cons x ts ih =>
    intro t h
    cases x with
    | mk d kk =>
      simp only [findTr] at h
      by_cases hd : d = k
      · rw [if_pos hd] at h
        cases h
        exact ⟨List.mem_cons_self _ _, hd⟩
      · rw [if_neg hd] at h
        obtain ⟨h1, h2⟩ := ih h
        exact ⟨List.mem_cons_of_mem _ h1, h2⟩

/-- Copy a source subtree into the result with no classification
(context nodes of a moved/removed subtree). -/
def untagF {α : Type} : List (Tr α) → List (DTr α)
  | [] => []
  | .mk d kk :: ts => .mk d none (untagF kk) :: untagF ts

/-- Modelled from the spec and the user-guide diff example: classify a
subtree that exists only on the T1 side.  A node whose key occurs
anywhere in T0 is a moved-here clone (its subtree is copied verbatim
as context); otherwise the node is added and its children are
classified recursively by the same rule. -/
def newF {α : Type} [DecidableEq α] (k0 : List α) : List (Tr α) → List (DTr α)
  | [] => []
  | .mk d kk :: ts =>
    (if d ∈ k0 then DTr.mk d (some .MOVED_HERE) (untagF kk)
     else DTr.mk d (some .ADDED) (newF k0 kk)) :: newF k0 ts

/-- The second pass of the child alignment: each T1 child whose key was
not among the original T0 children is materialized after the T0-order
baseline (added or moved-here). -/
def addedPass {α : Type} [DecidableEq α] (k0 c0keys : List α) : List (Tr α) → List (DTr α)
  | [] => []
  | .mk d kk :: rest =>
    if d ∈ c0keys then addedPass k0 c0keys rest
    else
      (if d ∈ k0 then DTr.mk d (some .MOVED_HERE) (untagF kk)
       else DTr.mk d (some .ADDED) (newF k0 kk)) :: addedPass k0 c0keys rest

theorem findTr_sizeOf {α : Type} [DecidableEq α] {k : α} {c : List (Tr α)} {t : Tr α}
    (h : findTr k c = some t) : sizeOf t < sizeOf c :=
  List.sizeOf_lt_of_mem (findTr_mem h).1

theorem tr_kids_sizeOf {α : Type} (t : Tr α) : sizeOf t.kids < sizeOf t := by
  cases t with
  | mk d kk =>
    simp only [Tr.kids, Tr.mk.sizeOf_spec]
    omega

/-- Modelled from the spec (§4.4) and the user-guide diff example: the
parent-synchronized recursive child alignment.  `k0`/`k1` are the full
key sets of `T0`/`T1` (for the moved-elsewhere tests), `c0keys` the
original T0-side sibling keys of the current parent.  A key present on
both sides is kept (unclassified; recurse); present only on the T0
side it is moved-away (key occurs elsewhere in T1; materialized as a
childless marker, per the documented output) or removed (subtree
materialized as context); T1-only children are processed by
`addedPass`. -/
def diffGo {α : Type} [DecidableEq α] (k0 k1 : List α) :
    List α → List (Tr α) → List (Tr α) → List (DTr α)
  | c0keys, [], c1 => addedPass k0 c0keys c1
  | c0keys, .mk d kk :: rest, c1 =>
    (match hf : findTr d c1 with
     | some t1 => DTr.mk t1.data none (diffGo k0 k1 (kk.map Tr.data) kk t1.kids)
     | none =>
       if d ∈ k1 then DTr.mk d (some .MOVED_AWAY) []
       else DTr.mk d (some .REMOVED) (untagF kk))
    :: diffGo k0 k1 c0keys rest c1
termination_by _ c0 c1 => sizeOf c0 + sizeOf c1
decreasing_by
  · have h1 := findTr_sizeOf hf
    have h2 := tr_kids_sizeOf t1
    simp only [List.cons.sizeOf_spec, Tr.mk.sizeOf_spec]
    omega
  · simp only [List.cons.sizeOf_spec, Tr.mk.sizeOf_spec]
    omega

/-- Modelled from the spec: `Tree.diff(T0, T1)`, producing the
annotated union from the perspective of T0. -/
def diffTree {α : Type} [DecidableEq α] (F0 F1 : List (Tr α)) : List (DTr α) :=
  diffGo (preData F0) (preData F1) (F0.map Tr.data) F0 F1

/-- Does the result forest contain a classified node anywhere? -/
def hasTagF {α : Type} : List (DTr α) → Bool
  | [] => false
  | .mk _ tag kids :: rest => tag.isSome || hasTagF kids || hasTagF rest

/-- Modelled from the spec: `reduce` pruning.  A node is retained iff
it is classified or some descendant is; retained ancestors keep only
their retained children. -/
def reduceF {α : Type} : List (DTr α) → List (DTr α)
  | [] => []
  | .mk d tag kids :: rest =>
    if tag.isSome || hasTagF kids then .mk d tag (reduceF kids) :: reduceF rest
    else reduceF rest

/-- No node of the result forest carries a classification. -/
def untaggedF {α : Type} : List (DTr α) → Bool
  | [] => true
  | .mk _ tag kids :: rest => tag.isNone && untaggedF kids && untaggedF rest

/-- The sibling-uniqueness invariant (no duplicate `data_id` under one
parent), checked recursively. -/
def sibUniqF {α : Type} [DecidableEq α] : List (Tr α) → Bool
  | [] => true
  | .mk d kk :: rest =>
    decide (d ∉ rest.map Tr.data) && sibUniqF kk && sibUniqF rest

/-- Pre-order listing of (payload, classification) pairs of a result
forest. -/
def flatD {α : Type} : List (DTr α) → List (α × Option DC)
  | [] => []
  | .mk d c k :: ts => (d, c) :: (flatD k ++ flatD ts)

theorem sibUniq_parts {α : Type} [DecidableEq α] {d : α} {kk rest : List (Tr α)}
    (h : sibUniqF (.mk d kk :: rest) = true) :
    d ∉ rest.map Tr.data ∧ sibUniqF kk = true ∧ sibUniqF rest = true := by
  simp only [sibUniqF, Bool.and_eq_true, decide_eq_true_eq] at h
  exact ⟨h.1.1, h.1.2, h.2⟩

theorem selfFind {α : Type} [DecidableEq α] :
    ∀ c : List (Tr α), sibUniqF c = true → ∀ t ∈ c, findTr t.data c = some t := by
  intro c
  induction c with
  | nil => intro _ t ht; simp at ht
  | cons x rest ih =>
    intro hsib t ht
    cases x with
    | mk d kk =>
      obtain ⟨hnd, hkk, hrest⟩ := sibUniq_parts hsib
      rcases List.mem_cons.1 ht with rfl | ht'
      · simp [findTr, Tr.data]
      · have hne : d ≠ t.data := by
          intro hc
          exact hnd (hc ▸ List.mem_map_of_mem Tr.data ht')
        simp only [findTr]
        rw [if_neg hne]
        exact ih hrest t ht'

theorem sibUniq_kids {α : Type} [DecidableEq α] :
    ∀ c : List (Tr α), sibUniqF c = true → ∀ t ∈ c, sibUniqF t.kids = true := by
  intro c
  induction c with
  | nil => intro _ t ht; simp at ht
  | cons x rest ih =>
    intro hsib t ht
    cases x with
    | mk d kk =>
      obtain ⟨_, hkk, hrest⟩ := sibUniq_parts hsib
      rcases List.mem_cons.1 ht with rfl | ht'
      · exact hkk
      · exact ih hrest t ht'

theorem addedPass_none {α : Type} [DecidableEq α] (k0 c0keys : List α) :
    ∀ c : List (Tr α), (∀ t ∈ c, t.data ∈ c0keys) →
      addedPass k0 c0keys c = [] := by
  intro c
  induction c with
  | nil => intro _; simp [addedPass]
  | cons x rest ih =>
    intro h
    cases x with
    | mk d kk =>
      have hd : d ∈ c0keys := by
        have := h (.mk d kk) (List.mem_cons_self _ _)
        simpa [Tr.data] using this
      simp only [addedPass, if_pos hd]
      exact ih (fun t ht => h t (List.mem_cons_of_mem _ ht))

theorem diff_self_untagged {α : Type} [DecidableEq α] (k0 k1 : List α) :
    ∀ n : Nat, ∀ c : List (Tr α), sizeOf c ≤ n → sibUniqF c = true →
      ∀ rest : List (Tr α), (∀ t ∈ rest, t ∈ c) →
      ∀ c0keys : List α, (∀ t ∈ c, t.data ∈ c0keys) →
      untaggedF (diffGo k0 k1 c0keys rest c) = true := by
  intro n
  induction n using Nat.strong_induction_on with
  | _ n ihn =>
    intro c hsz hsib rest
    induction rest with
    | nil =>
      intro _ c0keys hkeys
      simp only [diffGo]
      rw [addedPass_none k0 c0keys c hkeys]
      simp [untaggedF]
    | cons t rest' ihrest =>
      intro hsub c0keys hkeys
      cases t with
      | mk d kk =>
        have hmem : Tr.mk d kk ∈ c := hsub _ (List.mem_cons_self _ _)
        have hfind : findTr d c = some (.mk d kk) := by
          have := selfFind c hsib (.mk d kk) hmem
          simpa [Tr.data] using this
        simp only [diffGo]
        have hszkk : sizeOf kk < n := by
          have h1 := List.sizeOf_lt_of_mem hmem
          have h2 := tr_kids_sizeOf (Tr.mk d kk)
          simp only [Tr.kids] at h2
          omega
        have hkidsu : sibUniqF kk = true := by
          have := sibUniq_kids c hsib (.mk d kk) hmem
          simpa [Tr.kids] using this
        have hinner := ihn (sizeOf kk) hszkk kk le_rfl hkidsu kk
          (fun _ ht => ht) (kk.map Tr.data) (fun t ht => List.mem_map_of_mem Tr.data ht)
        have htail := ihrest (fun t ht => hsub t (List.mem_cons_of_mem _ ht)) c0keys hkeys
        split
        · rename_i t1 hf
          rw [hfind] at hf
          injection hf with hf
          subst hf
          simp [untaggedF, Tr.data, Tr.kids, hinner, htail]
        · rename_i hf
          rw [hfind] at hf
          cases hf

/-- C5: diffing a tree against itself, `diff(T, T)`, yields a result
in which no node anywhere carries a classification tag.  The tree is
assumed to satisfy the sibling-uniqueness invariant, which every tree
built through the checked insertion API has. -/
theorem C5_diff_identity {α : Type} [DecidableEq α] (F : List (Tr α))
    (h : sibUniqF F = true) : untaggedF (diffTree F F) = true := by
  rw [diffTree]
  exact diff_self_untagged (preData F) (preData F) (sizeOf F) F le_rfl h F
    (fun _ ht => ht) (F.map Tr.data) (fun t ht => List.mem_map_of_mem Tr.data ht)

/-- The `T0` tree of the user-guide diff example. -/
def T0ex : List (Tr String) :=
  [.mk "A" [.mk "a1" [.mk "a11" [], .mk "a12" []], .mk "a2" []],
   .mk "B" [.mk "b1" [.mk "b11" []]]]

/-- The `T1` tree of the user-guide diff example. -/
def T1ex : List (Tr String) :=
  [.mk "A" [.mk "a1" [.mk "a12" []], .mk "a2" [.mk "a21" []]],
   .mk "B" [],
   .mk "C" [.mk "b1" [.mk "b11" []]]]

/-- Concrete instantiation of the diff identity law on the example
tree `T0ex`. -/
theorem C5_diff_identity_witness :
    sibUniqF T0ex = true ∧ untaggedF (diffTree T0ex T0ex) = true :=
  ⟨by simp +decide [sibUniqF, T0ex],
   C5_diff_identity T0ex (by simp +decide [sibUniqF, T0ex])⟩

/-- First sibling of a result forest carrying the given key. -/
def findDTr {α : Type} [DecidableEq α] (k : α) : List (DTr α) → Option (DTr α)
  | [] => none
  | .mk d c kk :: ts => if d = k then some (.mk d c kk) else findDTr k ts

/-- Resolve a path of keys in a result forest. -/
def getPath {α : Type} [DecidableEq α] : List (DTr α) → List α → Option (DTr α)
  | _, [] => none
  | F, x :: xs =>
    match findDTr x F with
    | none => none
    | some t =>
      match xs with
      | [] => some t
      | y :: ys => getPath t.kids (y :: ys)
termination_by F xs => xs.length

/-- The classification tag at a path (`some none` = node present but
unclassified, `none` = no node at that path). -/
def tagAt {α : Type} [DecidableEq α] (F : List (DTr α)) (p : List α) : Option (Option DC) :=
  (getPath F p).map DTr.tag

/-- The concrete claim of the spec scenario for
`diff(T0, T1, reduce=True)`, as stated: the five classifications, the
retention of `b11` beneath `C/b1` as unclassified context, and the
pruning of unclassified nodes without classified descendants
(witnessed by `a12`). -/
def claimC1 : Prop :=
  tagAt (reduceF (diffTree T0ex T1ex)) ["A", "a1", "a11"] = some (some .REMOVED) ∧
  tagAt (reduceF (diffTree T0ex T1ex)) ["A", "a2", "a21"] = some (some .ADDED) ∧
  tagAt (reduceF (diffTree T0ex T1ex)) ["B", "b1"] = some (some .MOVED_AWAY) ∧
  tagAt (reduceF (diffTree T0ex T1ex)) ["C"] = some (some .ADDED) ∧
  tagAt (reduceF (diffTree T0ex T1ex)) ["C", "b1"] = some (some .MOVED_HERE) ∧
  tagAt (reduceF (diffTree T0ex T1ex)) ["C", "b1", "b11"] = some none ∧
  getPath (reduceF (diffTree T0ex T1ex)) ["A", "a1", "a12"] = none

/-- C1 counterexample: the claim as stated is false on the modelled
diff, because `b11` is NOT retained beneath `C/b1` in the reduced
result: being unclassified with no classified descendant it is pruned
like every other such node (exactly as the committed documentation
output shows). -/
theorem C1_counterexample : ¬ claimC1 := by
  intro h
  have h6 := h.2.2.2.2.2.1
  have hnone : tagAt (reduceF (diffTree T0ex T1ex)) ["C", "b1", "b11"] = none := by
    simp +decide [T0ex, T1ex, diffTree, diffGo, addedPass, newF, untagF, findTr,
      preData, Tr.data, Tr.kids, reduceF, hasTagF, tagAt, getPath, findDTr, DTr.tag,
      DTr.kids]
  rw [hnone] at h6
  cases h6

/-- The full (unreduced) diff result printed in the documentation:
`b11` appears beneath `C/b1` unclassified, and `B/b1` is a childless
moved-away marker. -/
def docFull : List (DTr String) :=
  [.mk "A" none
     [.mk "a1" none [.mk "a11" (some .REMOVED) [], .mk "a12" none []],
      .mk "a2" none [.mk "a21" (some .ADDED) []]],
   .mk "B" none [.mk "b1" (some .MOVED_AWAY) []],
   .mk "C" (some .ADDED) [.mk "b1" (some .MOVED_HERE) [.mk "b11" none []]]]

/-- The reduced diff result printed in the documentation: `a12` and
`b11` are pruned. -/
def docReduced : List (DTr String) :=
  [.mk "A" none
     [.mk "a1" none [.mk "a11" (some .REMOVED) []],
      .mk "a2" none [.mk "a21" (some .ADDED) []]],
   .mk "B" none [.mk "b1" (some .MOVED_AWAY) []],
   .mk "C" (some .ADDED) [.mk "b1" (some .MOVED_HERE) []]]

/-- C1 (amended): `diff(T0, T1, reduce=True)` tags exactly
`A/a1/a11 REMOVED`, `A/a2/a21 ADDED`, `B/b1 MOVED_AWAY`, `C ADDED`,
`C/b1 MOVED_HERE`; every unclassified node with no classified
descendant is pruned, including `b11` beneath `C/b1` (which is
retained, unclassified, only in the unreduced result).  Both the full
and the reduced results equal the documentation printouts
bit-exactly. -/
theorem C1_amended :
    diffTree T0ex T1ex = docFull ∧
    reduceF (diffTree T0ex T1ex) = docReduced ∧
    tagAt (reduceF (diffTree T0ex T1ex)) ["A", "a1", "a11"] = some (some .REMOVED) ∧
    tagAt (reduceF (diffTree T0ex T1ex)) ["A", "a2", "a21"] = some (some .ADDED) ∧
    tagAt (reduceF (diffTree T0ex T1ex)) ["B", "b1"] = some (some .MOVED_AWAY) ∧
    tagAt (reduceF (diffTree T0ex T1ex)) ["C"] = some (some .ADDED) ∧
    tagAt (reduceF (diffTree T0ex T1ex)) ["C", "b1"] = some (some .MOVED_HERE) ∧
    getPath (reduceF (diffTree T0ex T1ex)) ["C", "b1", "b11"] = none ∧
    getPath (reduceF (diffTree T0ex T1ex)) ["A", "a1", "a12"] = none ∧
    tagAt (diffTree T0ex T1ex) ["C", "b1", "b11"] = some none := by
  refine ⟨?_, ?_, ?_, ?_, ?_, ?_, ?_, ?_, ?_, ?_⟩ <;>
    simp +decide [T0ex, T1ex, diffTree, diffGo, addedPass, newF, untagF, findTr,
      preData, Tr.data, Tr.kids, reduceF, hasTagF, tagAt, getPath, findDTr, DTr.tag,
      DTr.kids, docFull, docReduced]

/-! ## Traversal engine: the visit callback protocol -/

/-- The values a `visit` callback can return: the plain booleans
`False`/`True`, `None`, any other value, `SkipBranch`, or
`StopTraversal(v)`. -/
inductive CbRet (ρ : Type) : Type where
  | isFalse
  | isTrue
  | noneV
  | other
  | skipBranch
  | stop (v : ρ)

/-- How a traversal ended: ran to completion, stopped by a plain
`False` (no result value), or stopped by `StopTraversal(v)`. -/
inductive VOut (ρ : Type) : Type where
  | done
  | stopFalse
  | stopVal (v : ρ)

/-- Pre-order listing of the visited subtrees of a forest. -/
def preNodes {α : Type} : List (Tr α) → List (Tr α)
  | [] => []
  | .mk d k :: ts => .mk d k :: (preNodes k ++ preNodes ts)

/-- Modelled from the spec: `Tree.visit(callback)`.  The callback is
invoked on every node in pre-order; `SkipBranch` prevents visiting the
current node's descendants and continues with its next sibling;
`StopTraversal(v)` and the plain `False` halt the whole traversal
immediately (with and without a result value respectively); `True`,
`None` and any other value continue the traversal unchanged.  Returns
the list of visited nodes in visit order and the outcome. -/
def visitGo {α ρ : Type} (cb : Tr α → CbRet ρ) : List (Tr α) → List (Tr α) × VOut ρ
  | [] => ([], .done)
  | .mk d k :: ts =>
    match cb (.mk d k) with
    | .stop v => ([.mk d k], .stopVal v)
    | .isFalse => ([.mk d k], .stopFalse)
    | .skipBranch =>
      let r := visitGo cb ts
      (.mk d k :: r.1, r.2)
    | _ =>
      let rk := visitGo cb k
      match rk.2 with
      | .done =>
        let rt := visitGo cb ts
        (.mk d k :: (rk.1 ++ rt.1), rt.2)
      | out => (.mk d k :: rk.1, out)

/-- The value `visit` returns to the caller. -/
def visitRet {α ρ : Type} (cb : Tr α → CbRet ρ) (F : List (Tr α)) : Option ρ :=
  match (visitGo cb F).2 with
  | .stopVal v => some v
  | _ => none

/-- The values a result-accumulating `find_all`-style match callback
can return: accept, reject, skip the branch with or without the node
itself. -/
inductive MRet : Type where
  | yes
  | no
  | skipAll
  | skipKeep

/-- Modelled from the spec: result accumulation over a pre-order
traversal with branch pruning.  `skipAll` skips the node and its
descendants; `skipKeep` accumulates the node but skips its
descendants. -/
def collectGo {α : Type} (m : Tr α → MRet) : List (Tr α) → List (Tr α)
  | [] => []
  | .mk d k :: ts =>
    match m (.mk d k) with
    | .skipAll => collectGo m ts
    | .skipKeep => .mk d k :: collectGo m ts
    | .yes => .mk d k :: (collectGo m k ++ collectGo m ts)
    | .no => collectGo m k ++ collectGo m ts

theorem getLast?_cons_ne {β : Type} (x : β) (l : List β) (h : l ≠ []) :
    (x :: l).getLast? = l.getLast? := by
  cases l with
  | nil => exact absurd rfl h
  | cons y ys => simp [List.getLast?_cons_cons]

theorem getLast?_append_ne {β : Type} (l1 l2 : List β) (h : l2 ≠ []) :
    (l1 ++ l2).getLast? = l2.getLast? := by
  induction l1 with
  | nil => simp
  | cons x xs ih =>
    rw [List.cons_append, getLast?_cons_ne]
    · exact ih
    · intro hc
      rw [List.append_eq_nil] at hc
      exact h hc.2

theorem some_getLast?_ne_nil {β : Type} {l : List β} {t : β}
    (h : l.getLast? = some t) : l ≠ [] := by
  intro hc
  rw [hc] at h
  simp at h

/-- If the traversal stopped with a value, the node that signalled the
stop is exactly the last visited node, and its callback returned that
very `stop` value: nothing is visited after the signal. -/
theorem visit_stopVal_last {α ρ : Type} (cb : Tr α → CbRet ρ) :
    ∀ F : List (Tr α), ∀ v : ρ, (visitGo cb F).2 = .stopVal v →
      ∃ t : Tr α, (visitGo cb F).1.getLast? = some t ∧ cb t = .stop v := by
  refine trInd ?_ ?_
  · intro v h
    simp [visitGo] at h
  · intro d k ts ihk ihts v h
    simp only [visitGo] at h ⊢
    cases hcb : cb (.mk d k) with
    | stop w =>
      simp only [hcb] at h ⊢
      cases h
      exact ⟨.mk d k, by simp, hcb⟩
    | isFalse => simp [hcb] at h
    | skipBranch =>
      simp only [hcb] at h ⊢
      obtain ⟨t, h1, h2⟩ := ihts v h
      refine ⟨t, ?_, h2⟩
      rw [getLast?_cons_ne _ _ (some_getLast?_ne_nil h1)]
      exact h1
    | isTrue =>
      simp only [hcb] at h ⊢
      cases hk2 : (visitGo cb k).2 with
      | done =>
        rw [hk2] at h
        dsimp only at h ⊢
        obtain ⟨t, h1, h2⟩ := ihts v h
        refine ⟨t, ?_, h2⟩
        rw [getLast?_cons_ne _ _ (by
          intro hc
          rw [List.append_eq_nil] at hc
          exact some_getLast?_ne_nil h1 hc.2),
          getLast?_append_ne _ _ (some_getLast?_ne_nil h1)]
        exact h1
      | stopFalse => rw [hk2] at h; dsimp only at h; cases h
      | stopVal w =>
        rw [hk2] at h
        dsimp only at h ⊢
        cases h
        obtain ⟨t, h1, h2⟩ := ihk v hk2
        refine ⟨t, ?_, h2⟩
        rw [getLast?_cons_ne _ _ (some_getLast?_ne_nil h1)]
        exact h1
    | noneV =>
      simp only [hcb] at h ⊢
      cases hk2 : (visitGo cb k).2 with
      | done =>
        rw [hk2] at h
        dsimp only at h ⊢
        obtain ⟨t, h1, h2⟩ := ihts v h
        refine ⟨t, ?_, h2⟩
        rw [getLast?_cons_ne _ _ (by
          intro hc
          rw [List.append_eq_nil] at hc
          exact some_getLast?_ne_nil h1 hc.2),
          getLast?_append_ne _ _ (some_getLast?_ne_nil h1)]
        exact h1
      | stopFalse => rw [hk2] at h; dsimp only at h; cases h
      | stopVal w =>
        rw [hk2] at h
        dsimp only at h ⊢
        cases h
        obtain ⟨t, h1, h2⟩ := ihk v hk2
        refine ⟨t, ?_, h2⟩
        rw [getLast?_cons_ne _ _ (some_getLast?_ne_nil h1)]
        exact h1
    | other =>
      simp only [hcb] at h ⊢
      cases hk2 : (visitGo cb k).2 with
      | done =>
        rw [hk2] at h
        dsimp only at h ⊢
        obtain ⟨t, h1, h2⟩ := ihts v h
        refine ⟨t, ?_, h2⟩
        rw [getLast?_cons_ne _ _ (by
          intro hc
          rw [List.append_eq_nil] at hc
          exact some_getLast?_ne_nil h1 hc.2),
          getLast?_append_ne _ _ (some_getLast?_ne_nil h1)]
        exact h1
      | stopFalse => rw [hk2] at h; dsimp only at h; cases h
      | stopVal w =>
        rw [hk2] at h
        dsimp only at h ⊢
        cases h
        obtain ⟨t, h1, h2⟩ := ihk v hk2
        refine ⟨t, ?_, h2⟩
        rw [getLast?_cons_ne _ _ (some_getLast?_ne_nil h1)]
        exact h1

/-- If the traversal stopped on a plain `False`, the node that
signalled it is exactly the last visited node. -/
theorem visit_stopFalse_last {α ρ : Type} (cb : Tr α → CbRet ρ) :
    ∀ F : List (Tr α), (visitGo cb F).2 = .stopFalse →
      ∃ t : Tr α, (visitGo cb F).1.getLast? = some t ∧ cb t = .isFalse := by
  refine trInd ?_ ?_
  · intro h
    simp [visitGo] at h
  · intro d k ts ihk ihts h
    simp only [visitGo] at h ⊢
    cases hcb : cb (.mk d k) with
    | stop w => simp [hcb] at h
    | isFalse =>
      simp only [hcb] at h ⊢
      exact ⟨.mk d k, by simp, hcb⟩
    | skipBranch =>
      simp only [hcb] at h ⊢
      obtain ⟨t, h1, h2⟩ := ihts h
      refine ⟨t, ?_, h2⟩
      rw [getLast?_cons_ne _ _ (some_getLast?_ne_nil h1)]
      exact h1
    | isTrue =>
      simp only [hcb] at h ⊢
      cases hk2 : (visitGo cb k).2 with
      | done =>
        rw [hk2] at h
        dsimp only at h ⊢
        obtain ⟨t, h1, h2⟩ := ihts h
        refine ⟨t, ?_, h2⟩
        rw [getLast?_cons_ne _ _ (by
          intro hc
          rw [List.append_eq_nil] at hc
          exact some_getLast?_ne_nil h1 hc.2),
          getLast?_append_ne _ _ (some_getLast?_ne_nil h1)]
        exact h1
      | stopVal w => rw [hk2] at h; dsimp only at h; cases h
      | stopFalse =>
        rw [hk2] at h
        dsimp only at h ⊢
        obtain ⟨t, h1, h2⟩ := ihk hk2
        refine ⟨t, ?_, h2⟩
        rw [getLast?_cons_ne _ _ (some_getLast?_ne_nil h1)]
        exact h1
    | noneV =>
      simp only [hcb] at h ⊢
      cases hk2 : (visitGo cb k).2 with
      | done =>
        rw [hk2] at h
        dsimp only at h ⊢
        obtain ⟨t, h1, h2⟩ := ihts h
        refine ⟨t, ?_, h2⟩
        rw [getLast?_cons_ne _ _ (by
          intro hc
          rw [List.append_eq_nil] at hc
          exact some_getLast?_ne_nil h1 hc.2),
          getLast?_append_ne _ _ (some_getLast?_ne_nil h1)]
        exact h1
      | stopVal w => rw [hk2] at h; dsimp only at h; cases h
      | stopFalse =>
        rw [hk2] at h
        dsimp only at h ⊢
        obtain ⟨t, h1, h2⟩ := ihk hk2
        refine ⟨t, ?_, h2⟩
        rw [getLast?_cons_ne _ _ (some_getLast?_ne_nil h1)]
        exact h1
    | other =>
      simp only [hcb] at h ⊢
      cases hk2 : (visitGo cb k).2 with
      | done =>
        rw [hk2] at h
        dsimp only at h ⊢
        obtain ⟨t, h1, h2⟩ := ihts h
        refine ⟨t, ?_, h2⟩
        rw [getLast?_cons_ne _ _ (by
          intro hc
          rw [List.append_eq_nil] at hc
          exact some_getLast?_ne_nil h1 hc.2),
          getLast?_append_ne _ _ (some_getLast?_ne_nil h1)]
        exact h1
      | stopVal w => rw [hk2] at h; dsimp only at h; cases h
      | stopFalse =>
        rw [hk2] at h
        dsimp only at h ⊢
        obtain ⟨t, h1, h2⟩ := ihk hk2
        refine ⟨t, ?_, h2⟩
        rw [getLast?_cons_ne _ _ (some_getLast?_ne_nil h1)]
        exact h1

/-- A traversal whose callback only ever answers `True`, `None`, or
other non-control value visits every node exactly once in pre-order
and runs to completion. -/
theorem visit_complete {α ρ : Type} (cb : Tr α → CbRet ρ) :
    ∀ F : List (Tr α),
      (∀ t ∈ preNodes F, cb t = .isTrue ∨ cb t = .noneV ∨ cb t = .other) →
      visitGo cb F = (preNodes F, .done) := by
  refine trInd ?_ ?_
  · intro _
    simp [visitGo, preNodes]
  · intro d k ts ihk ihts hcb
    have hhead := hcb (.mk d k) (by simp [preNodes])
    have hk := ihk (fun t ht => hcb t (by simp [preNodes, ht]))
    have hts := ihts (fun t ht => hcb t (by simp [preNodes, ht]))
    simp only [visitGo, preNodes]
    rcases hhead with h | h | h <;>
      simp only [h, hk, hts]

/-- C7: in the callback-based traversal, a `StopTraversal(v)` signal
halts the traversal immediately (the signalling node is the last one
visited; nothing below or after it is visited) and `visit` surfaces
`v` to the caller; a `SkipBranch` signal leaves the current node's
descendants unvisited and continues with its next sibling; and in the
result-accumulating form, skipping a branch can either exclude the
current node itself from the results (`skipAll`) or keep it
(`skipKeep`). -/
theorem C7_visit_protocol {α ρ : Type} (cb : Tr α → CbRet ρ) (m : Tr α → MRet)
    (d : α) (k ts : List (Tr α)) (v : ρ) :
    (cb (.mk d k) = .stop v →
      visitGo cb (.mk d k :: ts) = ([.mk d k], .stopVal v) ∧
      visitRet cb (.mk d k :: ts) = some v) ∧
    (∀ F : List (Tr α), ∀ w : ρ, (visitGo cb F).2 = .stopVal w →
      visitRet cb F = some w ∧
      ∃ t : Tr α, (visitGo cb F).1.getLast? = some t ∧ cb t = .stop w) ∧
    (cb (.mk d k) = .skipBranch →
      visitGo cb (.mk d k :: ts) =
        (.mk d k :: (visitGo cb ts).1, (visitGo cb ts).2)) ∧
    (m (.mk d k) = .skipAll → collectGo m (.mk d k :: ts) = collectGo m ts) ∧
    (m (.mk d k) = .skipKeep →
      collectGo m (.mk d k :: ts) = .mk d k :: collectGo m ts) := by
  refine ⟨?_, ?_, ?_, ?_, ?_⟩
  · intro h
    constructor
    · simp [visitGo, h]
    · simp [visitRet, visitGo, h]
  · intro F w h
    refine ⟨by simp [visitRet, h], visit_stopVal_last cb F w h⟩
  · intro h
    simp [visitGo, h]
  · intro h
    simp [collectGo, h]
  · intro h
    simp [collectGo, h]

/-- Concrete instantiation of the visit protocol: stopping with a
value at the first node, skipping a branch, and the two
result-accumulation skip variants. -/
theorem C7_visit_protocol_witness :
    (visitGo (fun t : Tr Nat => if t.data = 1 then .stop (42 : Nat) else .other)
        [.mk 1 [.mk 2 []], .mk 3 []] = ([.mk 1 [.mk 2 []]], .stopVal 42) ∧
     visitRet (fun t : Tr Nat => if t.data = 1 then .stop (42 : Nat) else .other)
        [.mk 1 [.mk 2 []], .mk 3 []] = some 42) ∧
    (visitGo (fun t : Tr Nat => if t.data = 1 then (.skipBranch : CbRet Nat) else .other)
        [.mk 1 [.mk 2 []], .mk 3 []]
      = (.mk 1 [.mk 2 []] ::
          (visitGo (fun t : Tr Nat => if t.data = 1 then (.skipBranch : CbRet Nat) else .other)
            [.mk 3 []]).1,
         (visitGo (fun t : Tr Nat => if t.data = 1 then (.skipBranch : CbRet Nat) else .other)
            [.mk 3 []]).2)) ∧
    collectGo (fun t : Tr Nat => if t.data = 1 then .skipAll else .yes)
        [.mk 1 [.mk 2 []], .mk 3 []]
      = collectGo (fun t : Tr Nat => if t.data = 1 then .skipAll else .yes) [.mk 3 []] ∧
    collectGo (fun t : Tr Nat => if t.data = 1 then .skipKeep else .yes)
        [.mk 1 [.mk 2 []], .mk 3 []]
      = .mk 1 [.mk 2 []] ::
          collectGo (fun t : Tr Nat => if t.data = 1 then .skipKeep else .yes) [.mk 3 []] :=
  ⟨(C7_visit_protocol (fun t : Tr Nat => if t.data = 1 then .stop (42 : Nat) else .other)
      (fun _ => .yes) 1 [.mk 2 []] [.mk 3 []] 42).1 (by simp [Tr.data]),
   (C7_visit_protocol (fun t : Tr Nat => if t.data = 1 then (.skipBranch : CbRet Nat) else .other)
      (fun _ => .yes) 1 [.mk 2 []] [.mk 3 []] 42).2.2.1 (by simp [Tr.data]),
   (C7_visit_protocol (fun _ : Tr Nat => (CbRet.other : CbRet Nat))
      (fun t : Tr Nat => if t.data = 1 then .skipAll else .yes)
      1 [.mk 2 []] [.mk 3 []] 0).2.2.2.1 (by simp [Tr.data]),
   (C7_visit_protocol (fun _ : Tr Nat => (CbRet.other : CbRet Nat))
      (fun t : Tr Nat => if t.data = 1 then .skipKeep else .yes)
      1 [.mk 2 []] [.mk 3 []] 0).2.2.2.2 (by simp [Tr.data])⟩

/-- C10: a plain boolean `False` returned by the visit callback also
stops the traversal immediately (the signalling node is the last one
visited), but `visit` then returns no result value, while `True`,
`None`, and any other value continue the traversal unchanged (all
nodes visited in pre-order, no early stop, no result value). -/
theorem C10_visit_false {α ρ : Type} (cb : Tr α → CbRet ρ)
    (d : α) (k ts : List (Tr α)) :
    (cb (.mk d k) = .isFalse →
      visitGo cb (.mk d k :: ts) = ([.mk d k], .stopFalse) ∧
      visitRet cb (.mk d k :: ts) = none) ∧
    (∀ F : List (Tr α), (visitGo cb F).2 = .stopFalse →
      visitRet cb F = none ∧
      ∃ t : Tr α, (visitGo cb F).1.getLast? = some t ∧ cb t = .isFalse) ∧
    (∀ F : List (Tr α),
      (∀ t ∈ preNodes F, cb t = .isTrue ∨ cb t = .noneV ∨ cb t = .other) →
      visitGo cb F = (preNodes F, .done) ∧ visitRet cb F = none) := by
  refine ⟨?_, ?_, ?_⟩
  · intro h
    constructor
    · simp [visitGo, h]
    · simp [visitRet, visitGo, h]
  · intro F h
    refine ⟨by simp [visitRet, h], visit_stopFalse_last cb F h⟩
  · intro F h
    have := visit_complete cb F h
    refine ⟨this, ?_⟩
    simp [visitRet, this]

/-- Concrete instantiation of the `False` stop rule and of the
continuation rule for `True`. -/
theorem C10_visit_false_witness :
    (visitGo (fun t : Tr Nat => if t.data = 1 then (.isFalse : CbRet Nat) else .isTrue)
        [.mk 1 [.mk 2 []], .mk 3 []] = ([.mk 1 [.mk 2 []]], .stopFalse) ∧
     visitRet (fun t : Tr Nat => if t.data = 1 then (.isFalse : CbRet Nat) else .isTrue)
        [.mk 1 [.mk 2 []], .mk 3 []] = none) ∧
    visitGo (fun _ : Tr Nat => (CbRet.isTrue : CbRet Nat)) [.mk 1 [.mk 2 []], .mk 3 []]
      = (preNodes [.mk 1 [.mk 2 []], .mk 3 []], .done) :=
  ⟨(C10_visit_false (fun t : Tr Nat => if t.data = 1 then (.isFalse : CbRet Nat) else .isTrue)
      1 [.mk 2 []] [.mk 3 []]).1 (by simp [Tr.data]),
   ((C10_visit_false (fun _ : Tr Nat => (CbRet.isTrue : CbRet Nat))
      1 [] []).2.2 [.mk 1 [.mk 2 []], .mk 3 []] (fun t _ => Or.inl rfl)).1⟩

/-! ## Tree/Node graph: checked mutation -/

/-- The error taxonomy of the mutation and lookup layer. -/
inductive TErr : Type where
  | ambiguousSibling
  | ambiguousMatch
  | cycle
  | nonEmptyNode
  | notFound
deriving Repr, DecidableEq

/-- Modelled from the spec: the Tree object.  It owns the forest of
top-level nodes (children of the implicit root), the `clone_index`
mapping each `data_id` to the node ids sharing it in insertion order,
the next fresh `node_id`, and the total node `count`. -/
structure TState (α : Type) : Type where
  forest : List (MTr α)
  cloneIdx : List (α × List Nat)
  nextId : Nat
  count : Nat

/-- Depth-first search of a node by id (same order as `addChild`). -/
def findM {α : Type} (p : Nat) : List (MTr α) → Option (MTr α)
  | [] => none
  | .mk i d k :: ts =>
    if i = p then some (.mk i d k)
    else
      match findM p k with
      | some t => some t
      | none => findM p ts

/-- The sibling list under a parent (`none` = the implicit root). -/
def childrenAt {α : Type} (pid : Option Nat) (F : List (MTr α)) :
    Option (List (MTr α)) :=
  match pid with
  | none => some F
  | some p => (findM p F).map MTr.kids

/-- Attach a node as last child of a parent (`none` = top level). -/
def attachM {α : Type} (pid : Option Nat) (c : MTr α) (F : List (MTr α)) :
    Option (List (MTr α)) :=
  match pid with
  | none => some (F ++ [c])
  | some p => addChild p c F

/-- Detach the subtree rooted at a node id, returning the remaining
forest and the detached subtree. -/
def detachM {α : Type} (nid : Nat) : List (MTr α) → Option (List (MTr α) × MTr α)
  | [] => none
  | .mk i d k :: ts =>
    if i = nid then some (ts, .mk i d k)
    else
      match detachM nid k with
      | some r => some (.mk i d r.1 :: ts, r.2)
      | none =>
        match detachM nid ts with
        | some r => some (.mk i d k :: r.1, r.2)
        | none => none

/-- Clone-index lookup: the node ids registered for a key, in
insertion order. -/
def ciLookup {α : Type} [DecidableEq α] (x : α) : List (α × List Nat) → List Nat
  | [] => []
  | (y, ns) :: rest => if y = x then ns else ciLookup x rest

/-- Register a node id for a key (appended, preserving insertion
order). -/
def ciAdd {α : Type} [DecidableEq α] (x : α) (n : Nat) :
    List (α × List Nat) → List (α × List Nat)
  | [] => [(x, [n])]
  | (y, ns) :: rest =>
    if y = x then (y, ns ++ [n]) :: rest else (y, ns) :: ciAdd x n rest

/-- Unregister a set of node ids; keys whose clone set becomes empty
are dropped. -/
def ciRemoveIds {α : Type} (ids : List Nat) : List (α × List Nat) → List (α × List Nat)
  | [] => []
  | (y, ns) :: rest =>
    let ns2 := ns.filter (fun n => decide (n ∉ ids))
    if ns2.isEmpty then ciRemoveIds ids rest else (y, ns2) :: ciRemoveIds ids rest

/-- Ids of the live nodes carrying a key, in pre-order. -/
def liveIds {α : Type} [DecidableEq α] (x : α) : List (MTr α) → List Nat
  | [] => []
  | .mk i d k :: ts =>
    (if d = x then [i] else []) ++ (liveIds x k ++ liveIds x ts)

/-- Sibling-uniqueness (invariant 2) on materialized forests. -/
def sibUniqM {α : Type} [DecidableEq α] : List (MTr α) → Bool
  | [] => true
  | .mk _ d kk :: rest =>
    decide (d ∉ rest.map MTr.data) && sibUniqM kk && sibUniqM rest

/-- The `node_index` view: node ids with their payloads, in pre-order. -/
def nodeIndexM {α : Type} : List (MTr α) → List (Nat × α)
  | [] => []
  | .mk i d k :: ts => (i, d) :: (nodeIndexM k ++ nodeIndexM ts)

/-- A mutation operation: insert a payload under a parent, move a
subtree under a new parent, or remove a subtree. -/
inductive Op (α : Type) : Type where
  | ins (parent : Option Nat) (x : α)
  | mv (nid : Nat) (newParent : Option Nat)
  | rm (nid : Nat) (cascade : Bool)

/-- Would attaching under this parent create a cycle?  True iff the
new parent is the moved node itself or one of its descendants. -/
def cycleCheck {α : Type} (pid : Option Nat) (sub : MTr α) : Bool :=
  match pid with
  | none => false
  | some p => decide (p ∈ posList [sub])

/-- Modelled from the spec: apply one operation with check-then-commit
ordering.  Insertion fails with `AmbiguousSiblingError` when an
equal-key sibling already exists under the same parent; move
additionally fails with `CycleError` when the new parent lies inside
the moved subtree; non-cascading removal of a node with children
fails with `NonEmptyNodeError`.  On failure the returned state is the
untouched input state. -/
def applyOp {α : Type} [DecidableEq α] (st : TState α) : Op α → TState α × Option TErr
  | .ins pid x =>
    match childrenAt pid st.forest with
    | none => (st, some .notFound)
    | some sibs =>
      if x ∈ sibs.map MTr.data then (st, some .ambiguousSibling)
      else
        match attachM pid (MTr.mk st.nextId x []) st.forest with
        | some F2 =>
          ({ forest := F2, cloneIdx := ciAdd x st.nextId st.cloneIdx,
             nextId := st.nextId + 1, count := st.count + 1 }, none)
        | none => (st, some .notFound)
  | .mv nid pid =>
    match detachM nid st.forest with
    | none => (st, some .notFound)
    | some r =>
      if cycleCheck pid r.2 then (st, some .cycle)
      else
        match childrenAt pid r.1 with
        | none => (st, some .notFound)
        | some sibs =>
          if r.2.data ∈ sibs.map MTr.data then (st, some .ambiguousSibling)
          else
            match attachM pid r.2 r.1 with
            | some F3 => ({ st with forest := F3 }, none)
            | none => (st, some .notFound)
  | .rm nid cascade =>
    match detachM nid st.forest with
    | none => (st, some .notFound)
    | some r =>
      if !cascade && !r.2.kids.isEmpty then (st, some .nonEmptyNode)
      else
        ({ forest := r.1, cloneIdx := ciRemoveIds (posList [r.2]) st.cloneIdx,
           nextId := st.nextId, count := st.count - (posList [r.2]).length }, none)

/-- Run a sequence of operations; a rejected operation leaves the
state unchanged and the sequence continues. -/
def runOps {α : Type} [DecidableEq α] (st : TState α) : List (Op α) → TState α
  | [] => st
  | op :: ops => runOps (applyOp st op).1 ops

/-- C8: insertion, move and removal are atomic with respect to
failure: whenever an operation reports an error (duplicate sibling
key, cycle, non-cascading removal of a node with children, unknown
id), the resulting state is exactly the state before the call — the
forest edges, the derived node index, the clone index and the count
are all untouched.  A rejected operation is a no-op. -/
theorem C8_atomic_failure {α : Type} [DecidableEq α] (st : TState α) (op : Op α)
    (e : TErr) (h : (applyOp st op).2 = some e) :
    (applyOp st op).1 = st ∧
    (applyOp st op).1.forest = st.forest ∧
    nodeIndexM (applyOp st op).1.forest = nodeIndexM st.forest ∧
    (applyOp st op).1.cloneIdx = st.cloneIdx ∧
    (applyOp st op).1.count = st.count := by
  have hst : (applyOp st op).1 = st := by
    cases op with
    | ins pid x =>
      simp only [applyOp] at h ⊢
      cases hc : childrenAt pid st.forest with
      | none => simp
      | some sibs =>
        simp only [hc] at h ⊢
        by_cases hm : x ∈ sibs.map MTr.data
        · rw [if_pos hm]
        · rw [if_neg hm] at h ⊢
          cases ha : attachM pid (MTr.mk st.nextId x []) st.forest with
          | none => simp
          | some F2 =>
            rw [ha] at h
            simp at h
    | mv nid pid =>
      simp only [applyOp] at h ⊢
      cases hd : detachM nid st.forest with
      | none => simp
      | some r =>
        simp only [hd] at h ⊢
        by_cases hcy : cycleCheck pid r.2 = true
        · rw [if_pos hcy]
        · rw [if_neg hcy] at h ⊢
          cases hc : childrenAt pid r.1 with
          | none => simp
          | some sibs =>
            simp only [hc] at h ⊢
            by_cases hm : r.2.data ∈ sibs.map MTr.data
            · rw [if_pos hm]
            · rw [if_neg hm] at h ⊢
              cases ha : attachM pid r.2 r.1 with
              | none => simp
              | some F3 =>
                rw [ha] at h
                simp at h
    | rm nid cascade =>
      simp only [applyOp] at h ⊢
      cases hd : detachM nid st.forest with
      | none => simp
      | some r =>
        simp only [hd] at h ⊢
        by_cases hne : (!cascade && !r.2.kids.isEmpty) = true
        · rw [if_pos hne]
        · rw [if_neg hne] at h
          simp at h
  exact ⟨hst, by rw [hst], by rw [hst], by rw [hst], by rw [hst]⟩

/-- Concrete instantiation of failure atomicity: a duplicate-key
insertion and a non-cascading removal of a non-leaf both leave the
state untouched. -/
theorem C8_atomic_failure_witness :
    (applyOp (TState.mk [MTr.mk 0 "a" []] [("a", [0])] 1 1) (Op.ins none "a")).1 =
      TState.mk [MTr.mk 0 "a" []] [("a", [0])] 1 1 ∧
    (applyOp (TState.mk [MTr.mk 0 "a" [MTr.mk 1 "b" []]] [("a", [0]), ("b", [1])] 2 2)
        (Op.rm 0 false)).1 =
      TState.mk [MTr.mk 0 "a" [MTr.mk 1 "b" []]] [("a", [0]), ("b", [1])] 2 2 :=
  ⟨(C8_atomic_failure _ (Op.ins none "a") .ambiguousSibling
      (by simp +decide [applyOp, childrenAt, MTr.data])).1,
   (C8_atomic_failure _ (Op.rm 0 false) .nonEmptyNode
      (by simp +decide [applyOp, detachM, MTr.kids])).1⟩

theorem sibUniqM_parts {α : Type} [DecidableEq α] {i : Nat} {d : α}
    {kk rest : List (MTr α)} :
    sibUniqM (.mk i d kk :: rest) = true ↔
      d ∉ rest.map MTr.data ∧ sibUniqM kk = true ∧ sibUniqM rest = true := by
  simp only [sibUniqM, Bool.and_eq_true, decide_eq_true_eq]
  constructor
  · intro h
    exact ⟨h.1.1, h.1.2, h.2⟩
  · intro h
    exact ⟨⟨h.1, h.2.1⟩, h.2.2⟩

theorem sibUniqM_append_one {α : Type} [DecidableEq α] (c : MTr α) :
    ∀ K : List (MTr α), sibUniqM K = true → sibUniqM [c] = true →
      c.data ∉ K.map MTr.data → sibUniqM (K ++ [c]) = true := by
  intro K
  induction K with
  | nil => intro _ hc _; simpa using hc
  | cons x rest ih =>
    intro hK hc hmem
    cases x with
    | mk i d kk =>
      obtain ⟨h1, h2, h3⟩ := sibUniqM_parts.1 hK
      rw [List.cons_append]
      refine sibUniqM_parts.2 ⟨?_, h2, ?_⟩
      · rw [List.map_append]
        intro hd
        rcases List.mem_append.1 hd with hd | hd
        · exact h1 hd
        · simp only [List.map_cons, List.map_nil, List.mem_singleton] at hd
          apply hmem
          rw [hd]
          exact List.mem_cons_self _ _
      · refine ih h3 hc ?_
        intro hd
        exact hmem (List.mem_cons_of_mem _ hd)

theorem addChild_none_of_no_pos {α : Type} {p : Nat} {c : MTr α} {K : List (MTr α)} :
    addChild p c K = none → hasPos p K = false := by
  intro h
  by_cases hp : hasPos p K = true
  · rw [addChild_eq_graft p c K hp] at h
    cases h
  · exact Bool.eq_false_iff.2 hp

theorem findM_some_hasPos {α : Type} (p : Nat) :
    ∀ K : List (MTr α), ∀ t, findM p K = some t → hasPos p K = true := by
  refine mtrInd ?_ ?_
  · intro t h
    simp [findM] at h
  · intro i d k ts ihk ihts t h
    simp only [findM] at h
    by_cases hip : i = p
    · simp [hasPos, hip]
    · rw [if_neg hip] at h
      simp only [hasPos, Bool.or_eq_true]
      cases hf : findM p k with
      | some u =>
        rw [hf] at h
        exact Or.inl (Or.inr (ihk u hf))
      | none =>
        rw [hf] at h
        exact Or.inr (ihts t h)

theorem findM_none_hasPos {α : Type} (p : Nat) :
    ∀ K : List (MTr α), findM p K = none → hasPos p K = false := by
  intro K h
  cases hp : hasPos p K with
  | false => rfl
  | true =>
    exfalso
    have := (hasPos_eq_mem p K).1 hp
    revert this h
    clear hp
    induction K using mtrInd with
    | h0 => intro h hm; simp [posList] at hm
    | h1 i d k ts ihk ihts =>
      intro h hm
      simp only [findM] at h
      by_cases hip : i = p
      · rw [if_pos hip] at h
        cases h
      · rw [if_neg hip] at h
        cases hf : findM p k with
        | some u => rw [hf] at h; cases h
        | none =>
          rw [hf] at h
          simp only [posList, List.mem_cons, List.mem_append] at hm
          rcases hm with hm | hm | hm
          · exact hip hm.symm
          · exact ihk hf hm
          · exact ihts h hm

theorem addChild_topData {α : Type} (p : Nat) (c : MTr α) :
    ∀ K K2 : List (MTr α), addChild p c K = some K2 →
      K2.map MTr.data = K.map MTr.data := by
  intro K
  induction K using mtrInd with
  | h0 => intro K2 h; simp [addChild] at h
  | h1 i d k ts ihk ihts =>
    intro K2 h
    simp only [addChild] at h
    by_cases hip : i = p
    · rw [if_pos hip] at h
      cases h
      simp [MTr.data]
    · rw [if_neg hip] at h
      cases hk : addChild p c k with
      | some k2 =>
        rw [hk] at h
        cases h
        simp [MTr.data]
      | none =>
        rw [hk] at h
        cases hts : addChild p c ts with
        | some ts2 =>
          rw [hts] at h
          simp only [Option.map] at h
          cases h
          simp [MTr.data, ihts ts2 hts]
        | none =>
          rw [hts] at h
          simp at h

theorem addChild_sibUniq {α : Type} [DecidableEq α] (p : Nat) (c : MTr α) :
    ∀ K : List (MTr α), sibUniqM K = true → sibUniqM [c] = true →
      (∀ t, findM p K = some t → c.data ∉ t.kids.map MTr.data) →
      ∀ K2, addChild p c K = some K2 → sibUniqM K2 = true := by
  intro K
  induction K using mtrInd with
  | h0 => intro _ _ _ K2 h; simp [addChild] at h
  | h1 i d k ts ihk ihts =>
    intro hK hc hfind K2 h
    obtain ⟨h1, h2, h3⟩ := sibUniqM_parts.1 hK
    simp only [addChild] at h
    by_cases hip : i = p
    · rw [if_pos hip] at h
      cases h
      have hkids : c.data ∉ k.map MTr.data := by
        have := hfind (.mk i d k) (by simp [findM, hip])
        simpa [MTr.kids] using this
      exact sibUniqM_parts.2 ⟨h1, sibUniqM_append_one c k h2 hc hkids, h3⟩
    · rw [if_neg hip] at h
      cases hk : addChild p c k with
      | some k2 =>
        rw [hk] at h
        cases h
        refine sibUniqM_parts.2 ⟨h1, ?_, h3⟩
        refine ihk h2 hc ?_ k2 hk
        intro t ht
        refine hfind t ?_
        simp [findM, hip, ht]
      | none =>
        rw [hk] at h
        cases hts : addChild p c ts with
        | some ts2 =>
          rw [hts] at h
          simp only [Option.map] at h
          cases h
          refine sibUniqM_parts.2 ⟨?_, h2, ?_⟩
          · rw [addChild_topData p c ts ts2 hts]
            exact h1
          · refine ihts h3 hc ?_ ts2 hts
            intro t ht
            refine hfind t ?_
            have hknone : findM p k = none := by
              cases hf : findM p k with
              | none => rfl
              | some u =>
                exfalso
                have hhas := findM_some_hasPos p k u hf
                rw [addChild_eq_graft p c k hhas] at hk
                cases hk
            simp [findM, hip, hknone, ht]
        | none =>
          rw [hts] at h
          simp at h

theorem detachM_topData {α : Type} (nid : Nat) :
    ∀ K : List (MTr α), ∀ K2 t, detachM nid K = some (K2, t) →
      ∀ x, x ∈ K2.map MTr.data → x ∈ K.map MTr.data := by
  refine mtrInd ?_ ?_
  · intro K2 t h
    simp [detachM] at h
  · intro i d k ts ihk ihts K2 t h x hx
    simp only [detachM] at h
    by_cases hin : i = nid
    · rw [if_pos hin] at h
      cases h
      simp only [List.map_cons]
      exact List.mem_cons_of_mem _ hx
    · rw [if_neg hin] at h
      cases hk : detachM nid k with
      | some r =>
        rw [hk] at h
        cases h
        simpa using hx
      | none =>
        rw [hk] at h
        cases hts : detachM nid ts with
        | some r =>
          rw [hts] at h
          cases h
          simp only [List.map_cons, List.mem_cons] at hx ⊢
          rcases hx with hx | hx
          · exact Or.inl hx
          · exact Or.inr (ihts r.1 r.2 (by rw [hts]) x hx)
        | none =>
          rw [hts] at h
          cases h

theorem detachM_sibUniq {α : Type} [DecidableEq α] (nid : Nat) :
    ∀ K : List (MTr α), sibUniqM K = true → ∀ K2 t, detachM nid K = some (K2, t) →
      sibUniqM K2 = true ∧ sibUniqM [t] = true := by
  refine mtrInd ?_ ?_
  · intro _ K2 t h
    simp [detachM] at h
  · intro i d k ts ihk ihts hK K2 t h
    obtain ⟨h1, h2, h3⟩ := sibUniqM_parts.1 hK
    simp only [detachM] at h
    by_cases hin : i = nid
    · rw [if_pos hin] at h
      cases h
      refine ⟨h3, sibUniqM_parts.2 ⟨by simp, h2, by simp [sibUniqM]⟩⟩
    · rw [if_neg hin] at h
      cases hk : detachM nid k with
      | some r =>
        rw [hk] at h
        cases h
        obtain ⟨hk1, hk2⟩ := ihk h2 r.1 r.2 (by rw [hk])
        exact ⟨sibUniqM_parts.2 ⟨h1, hk1, h3⟩, hk2⟩
      | none =>
        rw [hk] at h
        cases hts : detachM nid ts with
        | some r =>
          rw [hts] at h
          cases h
          obtain ⟨ht1, ht2⟩ := ihts h3 r.1 r.2 (by rw [hts])
          refine ⟨sibUniqM_parts.2 ⟨?_, h2, ht1⟩, ht2⟩
          intro hd
          exact h1 (detachM_topData nid ts r.1 r.2 (by rw [hts]) d hd)
        | none =>
          rw [hts] at h
          cases h

theorem attachM_sibUniq {α : Type} [DecidableEq α] (pid : Option Nat) (c : MTr α)
    (K : List (MTr α)) (hK : sibUniqM K = true) (hc : sibUniqM [c] = true)
    (sibs : List (MTr α)) (hsibs : childrenAt pid K = some sibs)
    (hmem : c.data ∉ sibs.map MTr.data) :
    ∀ K2, attachM pid c K = some K2 → sibUniqM K2 = true := by
  intro K2 h
  cases pid with
  | none =>
    simp only [attachM] at h
    cases h
    simp only [childrenAt] at hsibs
    cases hsibs
    exact sibUniqM_append_one c K hK hc hmem
  | some p =>
    simp only [attachM] at h
    simp only [childrenAt] at hsibs
    cases hf : findM p K with
    | none => rw [hf] at hsibs; cases hsibs
    | some t0 =>
      rw [hf] at hsibs
      simp only [Option.map] at hsibs
      cases hsibs
      refine addChild_sibUniq p c K hK hc ?_ K2 h
      intro t ht
      rw [hf] at ht
      cases ht
      exact hmem

/-- One checked operation preserves the sibling-uniqueness
invariant. -/
theorem applyOp_sibUniq {α : Type} [DecidableEq α] (st : TState α) (op : Op α)
    (h : sibUniqM st.forest = true) :
    sibUniqM ((applyOp st op).1).forest = true := by
  cases op with
  | ins pid x =>
    simp only [applyOp]
    cases hc : childrenAt pid st.forest with
    | none => exact h
    | some sibs =>
      dsimp only
      by_cases hm : x ∈ sibs.map MTr.data
      · rw [if_pos hm]
        exact h
      · rw [if_neg hm]
        cases ha : attachM pid (MTr.mk st.nextId x []) st.forest with
        | none => exact h
        | some F2 =>
          exact attachM_sibUniq pid _ st.forest h (by simp [sibUniqM]) sibs hc
            (by simpa [MTr.data] using hm) F2 ha
  | mv nid pid =>
    simp only [applyOp]
    cases hd : detachM nid st.forest with
    | none => exact h
    | some r =>
      dsimp only
      obtain ⟨hr1, hr2⟩ := detachM_sibUniq nid st.forest h r.1 r.2 (by rw [hd])
      by_cases hcy : cycleCheck pid r.2 = true
      · rw [if_pos hcy]
        exact h
      · rw [if_neg hcy]
        cases hc : childrenAt pid r.1 with
        | none => exact h
        | some sibs =>
          dsimp only
          by_cases hm : r.2.data ∈ sibs.map MTr.data
          · rw [if_pos hm]
            exact h
          · rw [if_neg hm]
            cases ha : attachM pid r.2 r.1 with
            | none => exact h
            | some F3 =>
              exact attachM_sibUniq pid r.2 r.1 hr1 hr2 sibs hc hm F3 ha
  | rm nid cascade =>
    simp only [applyOp]
    cases hd : detachM nid st.forest with
    | none => exact h
    | some r =>
      dsimp only
      obtain ⟨hr1, _⟩ := detachM_sibUniq nid st.forest h r.1 r.2 (by rw [hd])
      by_cases hne : (!cascade && !r.2.kids.isEmpty) = true
      · rw [if_pos hne]
        exact h
      · rw [if_neg hne]
        exact hr1

/-- C4: after every sequence of insert, move and remove operations, no
parent has two children with equal `data_id` (the operations check the
invariant and reject violating calls, leaving the state unchanged).
Concretely, from an empty tree: building `A`, `B` and `a2` under `A`,
an insertion of `a2` under `B` succeeds (different parent), while a
second insertion of `a2` directly under `A` fails with
`AmbiguousSiblingError` and the duplicate is never attached. -/
theorem C4_no_duplicate_siblings {α : Type} [DecidableEq α] :
    (∀ (st : TState α) (ops : List (Op α)), sibUniqM st.forest = true →
       sibUniqM (runOps st ops).forest = true) ∧
    (let st3 := runOps (TState.mk ([] : List (MTr String)) [] 0 0)
        [Op.ins none "A", Op.ins none "B", Op.ins (some 0) "a2"]
     (applyOp st3 (Op.ins (some 1) "a2")).2 = none ∧
     (applyOp (applyOp st3 (Op.ins (some 1) "a2")).1 (Op.ins (some 0) "a2")).2 =
        some TErr.ambiguousSibling ∧
     (applyOp (applyOp st3 (Op.ins (some 1) "a2")).1 (Op.ins (some 0) "a2")).1 =
        (applyOp st3 (Op.ins (some 1) "a2")).1) := by
  constructor
  · intro st ops
    induction ops generalizing st with
    | nil => intro h; exact h
    | cons op ops ih =>
      intro h
      simp only [runOps]
      exact ih _ (applyOp_sibUniq st op h)
  · refine ⟨?_, ?_, ?_⟩ <;>
      simp +decide [runOps, applyOp, childrenAt, attachM, addChild, findM, MTr.data,
        MTr.kids, ciAdd, cycleCheck]

/-- Concrete instantiation of invariant preservation on a small
operation sequence containing an insert, a move and a remove. -/
theorem C4_no_duplicate_siblings_witness :
    sibUniqM (runOps (TState.mk ([] : List (MTr String)) [] 0 0)
      [Op.ins none "A", Op.ins (some 0) "a1", Op.mv 1 none, Op.rm 1 true]).forest = true :=
  (C4_no_duplicate_siblings (α := String)).1 _ _ (by simp [sibUniqM])

/-! ## Lookup: unique and multi-result search by key -/

/-- Modelled from the spec: `find_all` / `lookup_all` — all node ids
sharing a key, in insertion order, read from the clone index; the
empty sequence when no node carries the key. -/
def findAllIds {α : Type} [DecidableEq α] (x : α) (st : TState α) : List Nat :=
  ciLookup x st.cloneIdx

/-- Modelled from the spec: `lookup_unique` / `tree[term]` — the
single matching node id; `AmbiguousMatchError` when more than one
node shares the key; not-found when no node carries it. -/
def lookupUnique {α : Type} [DecidableEq α] (x : α) (st : TState α) : Except TErr Nat :=
  match ciLookup x st.cloneIdx with
  | [] => Except.error TErr.notFound
  | [n] => Except.ok n
  | _ :: _ :: _ => Except.error TErr.ambiguousMatch

theorem ciLookup_ciAdd_self {α : Type} [DecidableEq α] (x : α) (n : Nat) :
    ∀ ci : List (α × List Nat), ciLookup x (ciAdd x n ci) = ciLookup x ci ++ [n] := by
  intro ci
  induction ci with
  | nil => simp [ciAdd, ciLookup]
  | cons p rest ih =>
    obtain ⟨y, ns⟩ := p
    by_cases h : y = x
    · subst h; simp [ciAdd, ciLookup]
    · simp [ciAdd, ciLookup, h, ih]

/-- C6: under the clone-index synchronization invariant (the index
lists for a key exactly the live nodes carrying it), the unique
lookup succeeds with the single matching node when exactly one node
carries the key, fails with `AmbiguousMatchError` whenever more than
one node shares the key, the multi-result form returns the empty
sequence exactly when no node carries the key, and a successful
insertion appends the fresh node id at the end of the key's result
list (insertion order). -/
theorem C6_lookup_protocol {α : Type} [DecidableEq α] (x : α) (st : TState α)
    (hsync : (findAllIds x st).Perm (liveIds x st.forest)) :
    (findAllIds x st = [] ↔ liveIds x st.forest = []) ∧
    (∀ n, lookupUnique x st = Except.ok n ↔ liveIds x st.forest = [n]) ∧
    (lookupUnique x st = Except.error TErr.ambiguousMatch ↔
       2 ≤ (liveIds x st.forest).length) ∧
    (∀ pid, (applyOp st (Op.ins pid x)).2 = none →
       findAllIds x (applyOp st (Op.ins pid x)).1 = findAllIds x st ++ [st.nextId]) := by
  have h4 : ∀ pid, (applyOp st (Op.ins pid x)).2 = none →
      findAllIds x (applyOp st (Op.ins pid x)).1 = findAllIds x st ++ [st.nextId] := by
    intro pid h
    simp only [applyOp] at h ⊢
    cases hc : childrenAt pid st.forest with
    | none => rw [hc] at h; simp at h
    | some sibs =>
      simp only [hc] at h ⊢
      by_cases hm : x ∈ sibs.map MTr.data
      · rw [if_pos hm] at h; simp at h
      · rw [if_neg hm] at h ⊢
        cases ha : attachM pid (MTr.mk st.nextId x []) st.forest with
        | none => rw [ha] at h; simp at h
        | some F2 =>
          dsimp only
          simp only [findAllIds]
          exact ciLookup_ciAdd_self x st.nextId st.cloneIdx
  simp only [findAllIds, lookupUnique] at hsync h4 ⊢
  rcases hc : ciLookup x st.cloneIdx with _ | ⟨a, _ | ⟨b, l⟩⟩ <;> rw [hc] at hsync h4
  · have hl : liveIds x st.forest = [] := hsync.symm.eq_nil
    refine ⟨by simp [hl], ?_, by simp [hl], h4⟩
    intro n
    simp [hl]
  · have hl : liveIds x st.forest = [a] := List.perm_singleton.mp hsync.symm
    refine ⟨by simp [hl], ?_, by simp [hl], h4⟩
    intro n
    simp only [hl, Except.ok.injEq]
    constructor
    · intro h; rw [h]
    · intro h; exact ((List.cons.injEq _ _ _ _).mp h).1
  · have h2 : 2 ≤ (liveIds x st.forest).length := by
      rw [← hsync.length_eq]
      simp only [List.length_cons]
      omega
    refine ⟨?_, ?_, by simp [h2], h4⟩
    · constructor
      · intro h; simp at h
      · intro hl; rw [hl] at h2; simp at h2
    · intro n
      constructor
      · intro h; simp at h
      · intro hl; rw [hl] at h2; simp at h2

/-- The concrete state of the clone example: `A` with one `fish`
child, plus a second top-level `fish` clone. -/
def st6w : TState String :=
  runOps (TState.mk ([] : List (MTr String)) [] 0 0)
    [Op.ins none "A", Op.ins (some 0) "fish", Op.ins none "fish"]

/-- Concrete instantiation: with two `fish` clones live, the unique
lookup reports `AmbiguousMatchError` exactly because two nodes share
the key. -/
theorem C6_lookup_protocol_witness :
    (findAllIds "fish" st6w).Perm (liveIds "fish" st6w.forest) ∧
    (lookupUnique "fish" st6w = Except.error TErr.ambiguousMatch ↔
       2 ≤ (liveIds "fish" st6w.forest).length) :=
  have hperm : (findAllIds "fish" st6w).Perm (liveIds "fish" st6w.forest) := by
    have h1 : findAllIds "fish" st6w = [1, 2] := by
      simp +decide [st6w, runOps, applyOp, childrenAt, attachM, addChild, findM,
        MTr.data, MTr.kids, ciAdd, findAllIds, ciLookup]
    have h2 : liveIds "fish" st6w.forest = [1, 2] := by
      simp +decide [st6w, runOps, applyOp, childrenAt, attachM, addChild, findM,
        MTr.data, MTr.kids, ciAdd, liveIds]
    rw [h1, h2]
  ⟨hperm, (C6_lookup_protocol "fish" st6w hperm).2.2.1⟩

/-! ## Copy and clones: payload-based node equality -/

/-- Modelled from the spec: `==` on nodes compares the payloads,
never the node instances. -/
def nodeEqM {α : Type} [DecidableEq α] (a b : MTr α) : Bool := decide (a.data = b.data)

/-- Modelled from the spec: `Tree.copy` — rebuild the forest out of
fresh node instances (ids offset by `base`) whose `data` attribute is
the very same payload. -/
def copyGo {α : Type} (base : Nat) : List (MTr α) → List (MTr α)
  | [] => []
  | .mk i d k :: ts => .mk (base + i) d (copyGo base k) :: copyGo base ts

theorem copyGo_strip {α : Type} (base : Nat) :
    ∀ F : List (MTr α), stripF (copyGo base F) = stripF F := by
  refine mtrInd (by simp [copyGo, stripF]) ?_
  intro i d k ts ihk ihts
  simp [copyGo, stripF, ihk, ihts]

theorem copyGo_nodeIndex {α : Type} (base : Nat) :
    ∀ F : List (MTr α),
      nodeIndexM (copyGo base F) = (nodeIndexM F).map (fun p => (base + p.1, p.2)) := by
  refine mtrInd (by simp [copyGo, nodeIndexM]) ?_
  intro i d k ts ihk ihts
  simp [copyGo, nodeIndexM, ihk, ihts]

theorem nodeIndexM_fst_mem {α : Type} :
    ∀ F : List (MTr α), ∀ p ∈ nodeIndexM F, p.1 ∈ posList F := by
  refine mtrInd (by simp [nodeIndexM]) ?_
  intro i d k ts ihk ihts p hp
  simp only [nodeIndexM, List.mem_cons, List.mem_append] at hp
  simp only [posList, List.mem_cons, List.mem_append]
  rcases hp with h | h | h
  · subst h; exact Or.inl rfl
  · exact Or.inr (Or.inl (ihk p h))
  · exact Or.inr (Or.inr (ihts p h))

theorem mem_liveIds_iff {α : Type} [DecidableEq α] (x : α) :
    ∀ F : List (MTr α), ∀ i, i ∈ liveIds x F ↔ (i, x) ∈ nodeIndexM F := by
  refine mtrInd (by simp [liveIds, nodeIndexM]) ?_
  intro j d k ts ihk ihts i
  by_cases h : d = x
  · subst h
    simp [liveIds, nodeIndexM, ihk, ihts]
  · simp [liveIds, nodeIndexM, ihk, ihts, h, Ne.symm h]

/-- C9: node equality is payload-based, not instance-based.  A copy
of the tree keeps the whole topology and the very same payload at
every position, yet consists of entirely fresh node instances (no
copied node shares an id with any original node); each original node
and its copy compare equal under the payload comparison.  Likewise
two clone results of `find_all` for one payload are distinct
instances (different ids) registered in the node index with the very
same payload, and they compare equal. -/
theorem C9_payload_equality {α : Type} [DecidableEq α] (base : Nat) (F : List (MTr α))
    (hbase : ∀ i ∈ posList F, i < base) :
    stripF (copyGo base F) = stripF F ∧
    (∀ p ∈ nodeIndexM F, ∀ q ∈ nodeIndexM (copyGo base F), p.1 ≠ q.1) ∧
    (∀ i x, (i, x) ∈ nodeIndexM F →
       (base + i, x) ∈ nodeIndexM (copyGo base F) ∧
       ∀ k1 k2 : List (MTr α), nodeEqM (MTr.mk i x k1) (MTr.mk (base + i) x k2) = true) ∧
    (∀ x i j, i ∈ liveIds x F → j ∈ liveIds x F → i ≠ j →
       (i, x) ∈ nodeIndexM F ∧ (j, x) ∈ nodeIndexM F ∧
       ∀ k1 k2 : List (MTr α), nodeEqM (MTr.mk i x k1) (MTr.mk j x k2) = true) := by
  refine ⟨copyGo_strip base F, ?_, ?_, ?_⟩
  · intro p hp q hq
    have h1 : p.1 ∈ posList F := nodeIndexM_fst_mem F p hp
    have h2 : p.1 < base := hbase _ h1
    rw [copyGo_nodeIndex] at hq
    obtain ⟨r, _, hqe⟩ := List.mem_map.mp hq
    intro hpq
    rw [← hqe] at hpq
    simp at hpq
    omega
  · intro i x hix
    refine ⟨?_, ?_⟩
    · rw [copyGo_nodeIndex]
      exact List.mem_map.mpr ⟨(i, x), hix, rfl⟩
    · intro k1 k2; simp [nodeEqM, MTr.data]
  · intro x i j hi hj _
    exact ⟨(mem_liveIds_iff x F i).mp hi, (mem_liveIds_iff x F j).mp hj,
      fun k1 k2 => by simp [nodeEqM, MTr.data]⟩

/-- Concrete instantiation: a two-clone forest, copied with id offset
2: the copy keeps the shape, and the two `fish` clones are distinct
instances carrying the very same payload that compare equal. -/
theorem C9_payload_equality_witness :
    (∀ i ∈ posList [MTr.mk 0 "fish" [], MTr.mk 1 "fish" []], i < 2) ∧
    stripF (copyGo 2 [MTr.mk 0 "fish" [], MTr.mk 1 "fish" []]) =
      stripF [MTr.mk 0 "fish" [], MTr.mk 1 "fish" []] ∧
    ((0, "fish") ∈ nodeIndexM [MTr.mk 0 "fish" [], MTr.mk 1 "fish" []] ∧
     (1, "fish") ∈ nodeIndexM [MTr.mk 0 "fish" [], MTr.mk 1 "fish" []] ∧
     ∀ k1 k2 : List (MTr String), nodeEqM (MTr.mk 0 "fish" k1) (MTr.mk 1 "fish" k2) = true) :=
  have hb : ∀ i ∈ posList [MTr.mk 0 "fish" [], MTr.mk 1 "fish" []], i < 2 := by
    simp [posList]
  ⟨hb, (C9_payload_equality 2 _ hb).1,
    (C9_payload_equality 2 _ hb).2.2.2 "fish" 0 1 (by simp [liveIds]) (by simp [liveIds])
      (by simp)⟩

end Nutree
